import Mathlib

/-!
Shallow embedding of `src/extract_helper.c` (WorldLayers): three
histogram decoders (`dsci_v0`, `dsci_v2`, `dsci_v13`) and the two
bitstream unpackers (`unpack_block_idxs_wc`, `unpack_block_idxs_nc`),
together with spec-side packing definitions and the verification of the
spec's claims about them.

Modelling conventions:
* Byte/word buffers (`const uint8_t *`, `const uint32_t *`,
  `const uint64_t *`) are functions `Nat → Nat`, masked to the C type's
  width at each read (`% 2 ^ 8`, `% 2 ^ 32`, `% 2 ^ 64`).
* The histogram (`uint64_t *blockCount`) is a function `Nat → Nat`;
  the C increment `blockCount[i]++` becomes `bump` (with the `uint64_t`
  wraparound made explicit).  Each decoder is expressed as a fold of
  `bump` over the list of histogram indices it writes, in program order.
* The unpackers' output buffer (`uint16_t *unpacked`) is modelled as
  the list of values written, in order.
* `size_t` arithmetic is `% 2 ^ 64`, `uint32_t` arithmetic `% 2 ^ 32`;
  the mod is written wherever the C value could exceed the width and
  omitted only where the operands are small constants.
-/

namespace WorldLayers

/-- C macro `NIBBLE_LO(x) = (uint32_t)((x) & 0xf)`. -/
def NIBBLE_LO (x : Nat) : Nat := x &&& 0xf

/-- C macro `NIBBLE_HI(x) = (uint32_t)(((x) >> 4) & 0xf)`. -/
def NIBBLE_HI (x : Nat) : Nat := (x >>> 4) &&& 0xf

/-- One C histogram increment `blockCount[i]++` on a `uint64_t` cell. -/
def bump (h : Nat → Nat) (i : Nat) : Nat → Nat :=
  fun j => if j = i then (h j + 1) % 2 ^ 64 else h j

/-- Histogram indices written by `dsci_v0`, in program order: the outer
loop runs `xz < 16*16`, the inner loop runs `y = 0, 2, ..., 126`
(modelled as `y = 2 * k`, `k < 64`), and each iteration increments at
`(y + 0) * idLim + bid1` and `(y + 1) * idLim + bid2` with
`idLim = 256 * 16`. -/
def v0Targets (blocks metadata : Nat → Nat) : List Nat :=
  (List.range (16 * 16)).flatMap fun xz =>
    (List.range 64).flatMap fun k =>
      let y := 2 * k
      let idx := y + xz * 128
      let bid1 := ((blocks idx % 2 ^ 8) <<< 4) ||| NIBBLE_LO (metadata (idx / 2) % 2 ^ 8)
      let bid2 := ((blocks (idx + 1) % 2 ^ 8) <<< 4) ||| NIBBLE_HI (metadata (idx / 2) % 2 ^ 8)
      [(y + 0) * (256 * 16) + bid1, (y + 1) * (256 * 16) + bid2]

/-- C `dsci_v0`. -/
def dsci_v0 (blockCount : Nat → Nat) (blocks metadata : Nat → Nat) : Nat → Nat :=
  (v0Targets blocks metadata).foldl bump blockCount

/-- Histogram indices written by `dsci_v2`, in program order:
`y < 16`, `zx < 16*16/2`, `idx = zx + y * (16*16/2)`; the flat index is
computed in `size_t` from the `uint32_t` subterm `ySection * 16`. -/
def v2Targets (idLim ySection : Nat) (blocks add add2 metadata : Nat → Nat) : List Nat :=
  (List.range 16).flatMap fun y =>
    (List.range (16 * 16 / 2)).flatMap fun zx =>
      let idx := zx + y * (16 * 16 / 2)
      let bid1 := (NIBBLE_LO (add2 idx % 2 ^ 8) <<< 16) |||
                  (NIBBLE_LO (add idx % 2 ^ 8) <<< 12) |||
                  ((blocks (idx * 2 + 0) % 2 ^ 8) <<< 4) |||
                  NIBBLE_LO (metadata idx % 2 ^ 8)
      let bid2 := (NIBBLE_HI (add2 idx % 2 ^ 8) <<< 16) |||
                  (NIBBLE_HI (add idx % 2 ^ 8) <<< 12) |||
                  ((blocks (idx * 2 + 1) % 2 ^ 8) <<< 4) |||
                  NIBBLE_HI (metadata idx % 2 ^ 8)
      [((ySection % 2 ^ 32 * 16 % 2 ^ 32 + y) * (idLim % 2 ^ 32) + bid1) % 2 ^ 64,
       ((ySection % 2 ^ 32 * 16 % 2 ^ 32 + y) * (idLim % 2 ^ 32) + bid2) % 2 ^ 64]

/-- C `dsci_v2`. -/
def dsci_v2 (blockCount : Nat → Nat) (idLim ySection : Nat)
    (blocks add add2 metadata : Nat → Nat) : Nat → Nat :=
  (v2Targets idLim ySection blocks add add2 metadata).foldl bump blockCount

/-- State/result of the with-carry extraction loop
`while (bufSize >= idxBits) { unpacked[iout++] = packBuf & mask; ... }`:
the values written, the updated `iout`, `packBuf`, `bufSize`, and
whether the `iout >= 16*16*16` early `return` fired. -/
structure WcSt where
  outs : List Nat
  iout : Nat
  buf : Nat
  bufSize : Nat
  done : Bool

/-- The with-carry extraction loop of `unpack_block_idxs_wc`.  Each
iteration stores one value and increments `iout`, so the loop
terminates on the measure `4096 - iout` even for `idxBits = 0`. -/
def wcExtract (idxBits mask iout buf bufSize : Nat) : WcSt :=
  if bufSize < idxBits then ⟨[], iout, buf, bufSize, false⟩
  else
    let v := buf &&& mask
    if h : 4096 ≤ iout + 1 then ⟨[v], iout + 1, buf, bufSize, true⟩
    else
      let r := wcExtract idxBits mask (iout + 1) (buf >>> idxBits) (bufSize - idxBits)
      ⟨v :: r.outs, r.iout, r.buf, r.bufSize, r.done⟩
  termination_by 4096 - iout
  decreasing_by omega

/-- The `for (;;)` loop of `unpack_block_idxs_wc`: feed the low 32 bits
of `packed[iin]`, extract, feed the high 32 bits, extract, advance
`iin`.  The infinite loop is given fuel; each iteration extracts at
least one value when `idxBits ≤ 16 < 32 ≤ bufSize + 32`, so fuel `4096`
is never the binding constraint for the guarded widths. -/
def wcOuter (packed : Nat → Nat) (idxBits mask : Nat) :
    Nat → Nat → Nat → Nat → Nat → List Nat
  | 0, _, _, _, _ => []
  | fuel + 1, iout, iin, buf, bufSize =>
    let w := packed iin % 2 ^ 64
    let bufA := buf ||| ((w % 2 ^ 32) <<< bufSize) % 2 ^ 64
    let r1 := wcExtract idxBits mask iout bufA (bufSize + 32)
    if r1.done then r1.outs
    else
      let bufB := r1.buf ||| ((w >>> 32) <<< r1.bufSize) % 2 ^ 64
      let r2 := wcExtract idxBits mask r1.iout bufB (r1.bufSize + 32)
      if r2.done then r1.outs ++ r2.outs
      else r1.outs ++ r2.outs ++
        wcOuter packed idxBits mask fuel r2.iout (iin + 1) r2.buf r2.bufSize

/-- C `unpack_block_idxs_wc`: `if (idxBits > 16) return;` then
`mask = (1 << idxBits) - 1` and the feed/extract loop starting from
`iout = iin = packBuf = bufSize = 0`. -/
def unpack_block_idxs_wc (packed : Nat → Nat) (idxBits : Nat) : List Nat :=
  if 16 < idxBits then []
  else wcOuter packed idxBits ((1 <<< idxBits) - 1) 4096 0 0 0 0

/-- State/result of the no-carry extraction loop. -/
structure NcSt where
  outs : List Nat
  iout : Nat
  done : Bool

/-- The no-carry extraction loop
`for (uint32_t i = 64; i >= idxBits; i -= idxBits) { ... }`. -/
def ncExtract (idxBits mask i iout buf : Nat) : NcSt :=
  if i < idxBits then ⟨[], iout, false⟩
  else
    let v := buf &&& mask
    if h : 4096 ≤ iout + 1 then ⟨[v], iout + 1, true⟩
    else
      let r := ncExtract idxBits mask (i - idxBits) (iout + 1) (buf >>> idxBits)
      ⟨v :: r.outs, r.iout, r.done⟩
  termination_by 4096 - iout
  decreasing_by omega

/-- The `for (;;)` loop of `unpack_block_idxs_nc`: read `packed[iin++]`
and run the extraction loop on it.  Each word yields at least one value
when `idxBits ≤ 16 ≤ 64`, so fuel `4096` is never the binding
constraint for the guarded widths. -/
def ncOuter (packed : Nat → Nat) (idxBits mask : Nat) : Nat → Nat → Nat → List Nat
  | 0, _, _ => []
  | fuel + 1, iout, iin =>
    let r := ncExtract idxBits mask 64 iout (packed iin % 2 ^ 64)
    if r.done then r.outs
    else r.outs ++ ncOuter packed idxBits mask fuel r.iout (iin + 1)

/-- C `unpack_block_idxs_nc`. -/
def unpack_block_idxs_nc (packed : Nat → Nat) (idxBits : Nat) : List Nat :=
  if 16 < idxBits then []
  else ncOuter packed idxBits ((1 <<< idxBits) - 1) 4096 0 0

/-- The width search of `dsci_v13`:
`while ((1u << idxBits) < maxPaletteIdx + 1) idxBits++;` in `uint32`
arithmetic, started at `idxBits = 4`.  Fuel `28` lets `idxBits` grow
from `4` to `32`; the C shift is undefined behaviour at `idxBits = 32`,
and for every `maxP1 ≤ 2 ^ 31` the loop exits at `idxBits ≤ 31`, so on
all defined executions the fuel is never the binding constraint. -/
def idxBitsLoop (maxP1 : Nat) : Nat → Nat → Nat
  | idxBits, 0 => idxBits
  | idxBits, fuel + 1 =>
    if (1 <<< idxBits) % 2 ^ 32 < maxP1 then idxBitsLoop maxP1 (idxBits + 1) fuel
    else idxBits

/-- The bit width `dsci_v13` computes from `maxPaletteIdx` (a
`uint32_t`; `maxPaletteIdx + 1` wraps at `2 ^ 32`). -/
def computeIdxBits (maxPaletteIdx : Nat) : Nat :=
  idxBitsLoop ((maxPaletteIdx % 2 ^ 32 + 1) % 2 ^ 32) 4 28

/-- The `paletteIdxs[16*16*16]` buffer of `dsci_v13` after the carry
branch: `unpack_block_idxs_wc` when `carry`, else
`unpack_block_idxs_nc`. -/
def unpackedIdxs (blockStates : Nat → Nat) (maxPaletteIdx : Nat) (carry : Bool) : List Nat :=
  if carry then unpack_block_idxs_wc blockStates (computeIdxBits maxPaletteIdx)
  else unpack_block_idxs_nc blockStates (computeIdxBits maxPaletteIdx)

/-- Histogram indices written by the counting loop of `dsci_v13`, in
program order: `y < 16`, `zx < 16*16`, `idx = zx + y * (16*16)`,
`bid = paletteMap[paletteIdxs[idx]]`. -/
def v13Targets (idLim ySection : Nat) (paletteMap : Nat → Nat)
    (paletteIdxs : List Nat) : List Nat :=
  (List.range 16).flatMap fun y =>
    (List.range (16 * 16)).flatMap fun zx =>
      let idx := zx + y * (16 * 16)
      let bid := paletteMap (paletteIdxs.getD idx 0) % 2 ^ 32
      [((ySection % 2 ^ 32 * 16 % 2 ^ 32 + y) * (idLim % 2 ^ 32) + bid) % 2 ^ 64]

/-- C `dsci_v13`. -/
def dsci_v13 (blockCount : Nat → Nat) (idLim ySection : Nat) (blockStates : Nat → Nat)
    (paletteMap : Nat → Nat) (maxPaletteIdx : Nat) (carry : Bool) : Nat → Nat :=
  (v13Targets idLim ySection paletteMap (unpackedIdxs blockStates maxPaletteIdx carry)).foldl
    bump blockCount

/-- Value of the `w`-bit-wide little-endian concatenation of a list:
entry `k` (taken `mod 2 ^ w`) occupies bits `[k*w, (k+1)*w)`. -/
def bitConcat (w : Nat) : List Nat → Nat
  | [] => 0
  | v :: vs => v % 2 ^ w + bitConcat w vs * 2 ^ w

/-- Bits `[k*w, (k+1)*w)` of `B`: the `k`-th `w`-bit chunk. -/
def chunkAt (B w k : Nat) : Nat := B / 2 ^ (w * k) % 2 ^ w

/-- With-carry packing, per the spec: the values are laid out
low-to-high as one continuous bitstream and cut into 64-bit words, so
that feeding the words 32 bits at a time low half first (with leftover
bits carried across feeds) replays the stream.  Words past the data are
zero. -/
def pack_wc (idxBits : Nat) (vs : List Nat) : Nat → Nat :=
  fun i => bitConcat idxBits vs / 2 ^ (64 * i) % 2 ^ 64

/-- No-carry packing, per the spec: word `i` holds the
`vpw = 64 / idxBits` values `[i*vpw, (i+1)*vpw)` laid out low-to-high
inside the word, the top `64 % idxBits` bits of each word unused, no
value straddling a word boundary.  Words past the data are zero. -/
def pack_nc (idxBits : Nat) (vs : List Nat) : Nat → Nat :=
  fun i => bitConcat idxBits ((vs.drop (i * (64 / idxBits))).take (64 / idxBits))

/-- The first 4096 words of `packed` as one big number (the unpackers
never read further for any width in the guarded range). -/
def streamOf (packed : Nat → Nat) : Nat :=
  bitConcat 64 ((List.range 4096).map packed)

/-- The v0 increments as the spec words them: for the pair at
`idx = y + column * 128`, the low cell's identifier is
`blocks[idx] << 4 | low_nibble(metadata[idx/2])` counted at layer `y`
and the paired cell's is
`blocks[idx+1] << 4 | high_nibble(metadata[idx/2])` counted at layer
`y + 1`, with `idLimit = 4096` (arithmetic closed forms). -/
def v0SpecTargets (blocks metadata : Nat → Nat) : List Nat :=
  (List.range 256).flatMap fun column =>
    (List.range 64).flatMap fun k =>
      let y := 2 * k
      let idx := y + column * 128
      [y * 4096 + (blocks idx % 256 * 16 + metadata (idx / 2) % 256 % 16),
       (y + 1) * 4096 + (blocks (idx + 1) % 256 * 16 + metadata (idx / 2) % 256 / 16)]

/-- Closed-form v2 identifier: the unsigned concatenation
`add2 : add : block : meta`, computed arithmetically and independently
of the decoder's shift/or pipeline. -/
def v2CellId (a2 a b m : Nat) : Nat := a2 * 2 ^ 16 + a * 2 ^ 12 + b * 2 ^ 4 + m

/-- The v2 increments as the spec words them: layer `ySection*16 + y`,
identifier the closed-form concatenation, low nibbles for the cell at
blocks index `idx*2+0`, high nibbles for the cell at `idx*2+1`. -/
def v2SpecTargets (idLim ySection : Nat) (blocks add add2 metadata : Nat → Nat) : List Nat :=
  (List.range 16).flatMap fun y =>
    (List.range 128).flatMap fun zx =>
      let idx := zx + y * 128
      [(ySection * 16 + y) * idLim +
         v2CellId (add2 idx % 256 % 16) (add idx % 256 % 16)
           (blocks (idx * 2) % 256) (metadata idx % 256 % 16),
       (ySection * 16 + y) * idLim +
         v2CellId (add2 idx % 256 / 16) (add idx % 256 / 16)
           (blocks (idx * 2 + 1) % 256) (metadata idx % 256 / 16)]

/-- The v13 increments as the spec words them: the local index at
linear position `idx = zx + y * 256` resolves through `paletteMap` and
is counted at `(ySection*16 + y) * idLimit + identifier`. -/
def v13SpecTargets (idLim ySection : Nat) (paletteMap : Nat → Nat)
    (idxs : List Nat) : List Nat :=
  (List.range 16).flatMap fun y =>
    (List.range 256).flatMap fun zx =>
      [(ySection * 16 + y) * idLim + paletteMap (idxs.getD (zx + y * 256) 0)]

/-! Arithmetic helper lemmas about two-power mod/div/bit operations. -/

theorem two_pow_pos' (n : Nat) : 0 < 2 ^ n := Nat.pos_pow_of_pos n (by omega)

theorem mod_pow_mod (x s t : Nat) (h : t ≤ s) : x % 2 ^ s % 2 ^ t = x % 2 ^ t :=
  Nat.mod_mod_of_dvd x (pow_dvd_pow 2 h)

theorem mod_pow_div (x s t : Nat) (h : t ≤ s) :
    x % 2 ^ s / 2 ^ t = x / 2 ^ t % 2 ^ (s - t) := by
  have hs : 2 ^ s = 2 ^ t * 2 ^ (s - t) := by
    rw [← pow_add]
    congr 1
    omega
  rw [hs, Nat.mod_mul_right_div_self]

theorem mod_pow_split (x s t : Nat) :
    x % 2 ^ (s + t) = x % 2 ^ s + x / 2 ^ s % 2 ^ t * 2 ^ s := by
  rw [pow_add, Nat.mod_mul]
  ring

theorem div_pow_div (x a b : Nat) : x / 2 ^ a / 2 ^ b = x / 2 ^ (a + b) := by
  rw [Nat.div_div_eq_div_mul, pow_add]

theorem lor_shiftLeft_eq_add (a b s : Nat) (h : a < 2 ^ s) :
    a ||| b <<< s = a + b * 2 ^ s := by
  rw [Nat.shiftLeft_eq, Nat.lor_comm, Nat.mul_comm b (2 ^ s),
    ← Nat.mul_add_lt_is_or h b]
  ring

theorem shiftLeft_one_sub_one (n : Nat) : (1 <<< n) - 1 = 2 ^ n - 1 := by
  rw [Nat.shiftLeft_eq, Nat.one_mul]

theorem and_mask_eq_mod (x n : Nat) : x &&& (2 ^ n - 1) = x % 2 ^ n :=
  Nat.and_pow_two_sub_one_eq_mod x n

/-! Lemmas about `bitConcat`. -/

theorem bitConcat_lt (w : Nat) : ∀ l : List Nat, bitConcat w l < 2 ^ (w * l.length)
  | [] => by simp [bitConcat]
  | v :: vs => by
    have ih := bitConcat_lt w vs
    have hv : v % 2 ^ w < 2 ^ w := Nat.mod_lt _ (two_pow_pos' w)
    have h1 : v % 2 ^ w + bitConcat w vs * 2 ^ w < (bitConcat w vs + 1) * 2 ^ w := by
      calc v % 2 ^ w + bitConcat w vs * 2 ^ w
          < 2 ^ w + bitConcat w vs * 2 ^ w := by omega
        _ = (bitConcat w vs + 1) * 2 ^ w := by ring
    have h2 : (bitConcat w vs + 1) * 2 ^ w ≤ 2 ^ (w * vs.length) * 2 ^ w :=
      mul_le_mul_right' (by omega) _
    have h3 : 2 ^ (w * vs.length) * 2 ^ w = 2 ^ (w * (vs.length + 1)) := by
      rw [show w * (vs.length + 1) = w * vs.length + w by ring, pow_add]
    simpa [bitConcat] using lt_of_lt_of_le h1 (h3 ▸ h2)

theorem bitConcat_chunk (w : Nat) : ∀ (l : List Nat) (k : Nat),
    bitConcat w l / 2 ^ (w * k) % 2 ^ w = l.getD k 0 % 2 ^ w
  | [], k => by simp [bitConcat]
  | v :: vs, 0 => by
    simp only [bitConcat, Nat.mul_zero, pow_zero, Nat.div_one, List.getD_cons_zero]
    rw [Nat.add_mul_mod_self_right]
    exact mod_pow_mod v w w le_rfl
  | v :: vs, k + 1 => by
    have hsplit : 2 ^ (w * (k + 1)) = 2 ^ w * 2 ^ (w * k) := by
      rw [← pow_add]
      congr 1
      ring
    have hdiv : (v % 2 ^ w + bitConcat w vs * 2 ^ w) / 2 ^ w = bitConcat w vs := by
      rw [Nat.add_mul_div_right _ _ (two_pow_pos' w),
        Nat.div_eq_of_lt (Nat.mod_lt _ (two_pow_pos' w))]
      omega
    simp only [bitConcat, List.getD_cons_succ]
    rw [hsplit, ← Nat.div_div_eq_div_mul, hdiv, bitConcat_chunk w vs k]

theorem bitConcat_mod (w : Nat) : ∀ (l : List Nat) (n : Nat),
    bitConcat w l % 2 ^ (w * n) = bitConcat w (l.take n)
  | [], n => by simp [bitConcat]
  | v :: vs, 0 => by simp [bitConcat, Nat.mod_one]
  | v :: vs, n + 1 => by
    have hsplit : 2 ^ (w * (n + 1)) = 2 ^ w * 2 ^ (w * n) := by
      rw [← pow_add]
      congr 1
      ring
    have hdiv : (v % 2 ^ w + bitConcat w vs * 2 ^ w) / 2 ^ w = bitConcat w vs := by
      rw [Nat.add_mul_div_right _ _ (two_pow_pos' w),
        Nat.div_eq_of_lt (Nat.mod_lt _ (two_pow_pos' w))]
      omega
    simp only [bitConcat, List.take_succ_cons]
    rw [hsplit, Nat.mod_mul, Nat.add_mul_mod_self_right, mod_pow_mod v w w le_rfl, hdiv,
      bitConcat_mod w vs n]
    ring

/-! Lemmas about `bump` folds: pointwise value, frame, conservation. -/

theorem foldl_bump_apply : ∀ (l : List Nat) (h : Nat → Nat),
    (∀ i, h i + l.count i < 2 ^ 64) →
    ∀ j, (l.foldl bump h) j = h j + l.count j
  | [], h, _, j => by simp
  | a :: l, h, hov, j => by
    have hova : h a + 1 + l.count a < 2 ^ 64 := by
      have hc := hov a
      simp [List.count_cons] at hc
      omega
    have hba : bump h a a = h a + 1 := by
      simp only [bump, if_pos rfl]
      exact Nat.mod_eq_of_lt (by omega)
    have hov1 : ∀ i, bump h a i + l.count i < 2 ^ 64 := by
      intro i
      by_cases hia : i = a
      · subst hia
        rw [hba]
        omega
      · have hc := hov i
        simp only [List.count_cons] at hc
        simp only [bump, if_neg hia]
        omega
    have ih := foldl_bump_apply l (bump h a) hov1 j
    simp only [List.foldl_cons, ih, List.count_cons, beq_iff_eq]
    by_cases hja : j = a
    · subst hja
      rw [hba, if_pos rfl]
      omega
    · simp only [bump, if_neg hja]
      rw [if_neg fun he => hja he.symm]
      omega

theorem count_sum_length : ∀ (l : List Nat) (N : Nat), (∀ x ∈ l, x < N) →
    ((Finset.range N).sum fun i => l.count i) = l.length
  | [], N, _ => by simp
  | a :: l, N, hN => by
    have ha : a < N := hN a (List.mem_cons_self a l)
    have ih := count_sum_length l N fun x hx => hN x (List.mem_cons_of_mem a hx)
    simp only [List.count_cons, List.length_cons]
    rw [Finset.sum_add_distrib, ih]
    congr 1
    have : ((Finset.range N).sum fun i => if a == i then 1 else 0) =
        (Finset.range N).sum fun i => if a = i then 1 else 0 := by
      apply Finset.sum_congr rfl
      intro i _
      simp
    rw [this, Finset.sum_ite_eq]
    simp [ha]

theorem flatMap_length_const {α : Type} : ∀ (l : List α) (f : α → List Nat) (c : Nat),
    (∀ a ∈ l, (f a).length = c) → (l.flatMap f).length = c * l.length
  | [], _, _, _ => by simp
  | a :: l, f, c, hc => by
    have ih := flatMap_length_const l f c fun x hx => hc x (List.mem_cons_of_mem a hx)
    simp only [List.flatMap_cons, List.length_append, ih, List.length_cons]
    rw [hc a (List.mem_cons_self a l)]
    ring

/-! Behaviour of the with-carry extraction loop.  Invariant: when the
loop is entered with `iout` values already produced and `packBuf`
holding the next `bufSize` still-unconsumed stream bits, it drains
`min (bufSize / idxBits) (4096 - iout)` further chunks of the stream
`B`. -/

theorem wcExtract_spec (B idxBits : Nat) (h1 : 1 ≤ idxBits) :
    ∀ (n iout buf bufSize : Nat), iout + n = 4096 → iout < 4096 →
      buf = B / 2 ^ (idxBits * iout) % 2 ^ bufSize →
      (wcExtract idxBits (2 ^ idxBits - 1) iout buf bufSize).outs =
          (List.range' iout (min (bufSize / idxBits) (4096 - iout))).map (chunkAt B idxBits) ∧
        (wcExtract idxBits (2 ^ idxBits - 1) iout buf bufSize).iout =
          iout + min (bufSize / idxBits) (4096 - iout) ∧
        (wcExtract idxBits (2 ^ idxBits - 1) iout buf bufSize).done =
          decide (4096 ≤ iout + bufSize / idxBits) ∧
        (iout + bufSize / idxBits < 4096 →
          (wcExtract idxBits (2 ^ idxBits - 1) iout buf bufSize).buf =
              B / 2 ^ (idxBits * (iout + bufSize / idxBits)) % 2 ^ (bufSize % idxBits) ∧
            (wcExtract idxBits (2 ^ idxBits - 1) iout buf bufSize).bufSize =
              bufSize % idxBits)
  | 0, iout, buf, bufSize, hn, hlt, _ => absurd hn (by omega)
  | n + 1, iout, buf, bufSize, hn, hlt, hbuf => by
    by_cases hbs : bufSize < idxBits
    · have hstep : wcExtract idxBits (2 ^ idxBits - 1) iout buf bufSize =
          ⟨[], iout, buf, bufSize, false⟩ := by
        rw [wcExtract]
        simp only [if_pos hbs]
      have hq : bufSize / idxBits = 0 := Nat.div_eq_of_lt hbs
      have hm : bufSize % idxBits = bufSize := Nat.mod_eq_of_lt hbs
      rw [hstep, hq]
      refine ⟨by simp, by simp, ?_, fun _ => ⟨?_, by simp [hm]⟩⟩
      · exact (decide_eq_false (by omega)).symm
      · simpa [hm] using hbuf
    · have hv : buf &&& (2 ^ idxBits - 1) = chunkAt B idxBits iout := by
        rw [and_mask_eq_mod, hbuf, mod_pow_mod _ _ _ (by omega), chunkAt]
      have hq1 : 1 ≤ bufSize / idxBits := by
        rw [Nat.le_div_iff_mul_le (by omega)]
        omega
      by_cases h4 : 4096 ≤ iout + 1
      · have hstep : wcExtract idxBits (2 ^ idxBits - 1) iout buf bufSize =
            ⟨[buf &&& (2 ^ idxBits - 1)], iout + 1, buf, bufSize, true⟩ := by
          rw [wcExtract]
          simp only [if_neg hbs, dif_pos h4]
        have hio : iout = 4095 := by omega
        have hmin : min (bufSize / idxBits) (4096 - iout) = 1 := by omega
        rw [hstep, hmin]
        refine ⟨?_, by simp, ?_, fun hc => absurd hc (by omega)⟩
        · simp [List.range'_succ, hv]
        · exact (decide_eq_true (by omega)).symm
      · have hstep : wcExtract idxBits (2 ^ idxBits - 1) iout buf bufSize =
            ⟨(buf &&& (2 ^ idxBits - 1)) ::
                (wcExtract idxBits (2 ^ idxBits - 1) (iout + 1) (buf >>> idxBits)
                  (bufSize - idxBits)).outs,
              (wcExtract idxBits (2 ^ idxBits - 1) (iout + 1) (buf >>> idxBits)
                (bufSize - idxBits)).iout,
              (wcExtract idxBits (2 ^ idxBits - 1) (iout + 1) (buf >>> idxBits)
                (bufSize - idxBits)).buf,
              (wcExtract idxBits (2 ^ idxBits - 1) (iout + 1) (buf >>> idxBits)
                (bufSize - idxBits)).bufSize,
              (wcExtract idxBits (2 ^ idxBits - 1) (iout + 1) (buf >>> idxBits)
                (bufSize - idxBits)).done⟩ := by
          rw [wcExtract]
          simp only [if_neg hbs, dif_neg h4]
        have hbuf1 : buf >>> idxBits =
            B / 2 ^ (idxBits * (iout + 1)) % 2 ^ (bufSize - idxBits) := by
          rw [Nat.shiftRight_eq_div_pow, hbuf, mod_pow_div _ _ _ (by omega), div_pow_div,
            show idxBits * iout + idxBits = idxBits * (iout + 1) by ring]
        have ih := wcExtract_spec B idxBits h1 n (iout + 1) (buf >>> idxBits)
          (bufSize - idxBits) (by omega) (by omega) hbuf1
        obtain ⟨iho, ihi, ihd, ihs⟩ := ih
        have hqrec : bufSize / idxBits = (bufSize - idxBits) / idxBits + 1 :=
          Nat.div_eq_sub_div (by omega) (by omega)
        have hmrec : bufSize % idxBits = (bufSize - idxBits) % idxBits := by
          conv_lhs => rw [show bufSize = bufSize - idxBits + idxBits by omega]
          rw [Nat.add_mod_right]
        have hminrec : min (bufSize / idxBits) (4096 - iout) =
            min ((bufSize - idxBits) / idxBits) (4096 - (iout + 1)) + 1 := by
          omega
        rw [hstep]
        refine ⟨?_, ?_, ?_, ?_⟩
        · show _ :: _ = _
          rw [iho, hminrec, List.range'_succ, List.map_cons, hv]
        · show (wcExtract _ _ _ _ _).iout = _
          rw [ihi]
          omega
        · show (wcExtract _ _ _ _ _).done = _
          rw [ihd]
          simp only [decide_eq_decide]
          omega
        · intro hcont
          have hcont1 : iout + 1 + (bufSize - idxBits) / idxBits < 4096 := by omega
          obtain ⟨ihb, ihbs⟩ := ihs hcont1
          have he : iout + 1 + (bufSize - idxBits) / idxBits = iout + bufSize / idxBits := by
            omega
          constructor
          · show (wcExtract _ _ _ _ _).buf = _
            rw [ihb, he, hmrec]
          · show (wcExtract _ _ _ _ _).bufSize = _
            rw [ihbs, hmrec]

/-! Behaviour of the with-carry feed/extract loop.  Invariant at the
top of the `for (;;)` loop: `iout` chunks of the stream `B` produced,
`64 * iin` bits fed, `packBuf` holding the `bufSize < idxBits` leftover
bits, so `64 * iin = idxBits * iout + bufSize`. -/

theorem wcOuter_spec (B : Nat) (packed : Nat → Nat) (idxBits : Nat)
    (h1 : 1 ≤ idxBits) (h16 : idxBits ≤ 16)
    (hp : ∀ i, packed i % 2 ^ 64 = B / 2 ^ (64 * i) % 2 ^ 64) :
    ∀ (fuel iout iin buf bufSize : Nat),
      iout < 4096 → 4096 ≤ iout + fuel → bufSize < idxBits →
      64 * iin = idxBits * iout + bufSize →
      buf = B / 2 ^ (idxBits * iout) % 2 ^ bufSize →
      wcOuter packed idxBits (2 ^ idxBits - 1) fuel iout iin buf bufSize =
        (List.range' iout (4096 - iout)).map (chunkAt B idxBits)
  | 0, iout, iin, buf, bufSize, hlt, hfuel, _, _, _ => absurd hfuel (by omega)
  | fuel + 1, iout, iin, buf, bufSize, hlt, hfuel, hbs, hinv, hbuf => by
    have hw := hp iin
    have hblt : buf < 2 ^ bufSize := by
      rw [hbuf]
      exact Nat.mod_lt _ (two_pow_pos' bufSize)
    have hlo32 : packed iin % 2 ^ 64 % 2 ^ 32 =
        B / 2 ^ (idxBits * iout + bufSize) % 2 ^ 32 := by
      rw [hw, mod_pow_mod _ _ _ (by omega), hinv]
    have hsmallA : (packed iin % 2 ^ 64 % 2 ^ 32) <<< bufSize < 2 ^ 64 := by
      rw [Nat.shiftLeft_eq]
      calc packed iin % 2 ^ 64 % 2 ^ 32 * 2 ^ bufSize
          < 2 ^ 32 * 2 ^ bufSize :=
            mul_lt_mul_of_pos_right (Nat.mod_lt _ (two_pow_pos' 32)) (two_pow_pos' bufSize)
        _ = 2 ^ (32 + bufSize) := (pow_add 2 32 bufSize).symm
        _ ≤ 2 ^ 64 := Nat.pow_le_pow_right (by omega) (by omega)
    have hbufA : buf ||| ((packed iin % 2 ^ 64 % 2 ^ 32) <<< bufSize) % 2 ^ 64 =
        B / 2 ^ (idxBits * iout) % 2 ^ (bufSize + 32) := by
      rw [Nat.mod_eq_of_lt hsmallA, lor_shiftLeft_eq_add _ _ _ hblt, hbuf, hlo32,
        mod_pow_split, div_pow_div]
    obtain ⟨ho1, hi1, hd1, hs1⟩ :=
      wcExtract_spec B idxBits h1 (4096 - iout) iout _ (bufSize + 32) (by omega) hlt hbufA
    have hq1pos : 1 ≤ (bufSize + 32) / idxBits := by
      rw [Nat.le_div_iff_mul_le (by omega)]
      omega
    simp only [wcOuter]
    by_cases hc1 : 4096 ≤ iout + (bufSize + 32) / idxBits
    · rw [if_pos (hd1.trans (decide_eq_true hc1))]
      rw [ho1, show min ((bufSize + 32) / idxBits) (4096 - iout) = 4096 - iout from by omega]
    · rw [if_neg (by rw [hd1]; simpa using hc1)]
      rw [show min ((bufSize + 32) / idxBits) (4096 - iout) = (bufSize + 32) / idxBits
        from by omega] at ho1 hi1
      obtain ⟨hb1, hbs1⟩ := hs1 (by omega)
      rw [hb1, hbs1, hi1]
      have hbslt1 : (bufSize + 32) % idxBits < idxBits := Nat.mod_lt _ (by omega)
      have hhi32 : (packed iin % 2 ^ 64) >>> 32 = B / 2 ^ (64 * iin + 32) % 2 ^ 32 := by
        rw [hw, Nat.shiftRight_eq_div_pow, mod_pow_div _ _ _ (by omega), div_pow_div]
      have hdm1 := Nat.div_add_mod (bufSize + 32) idxBits
      have hpos2 : idxBits * (iout + (bufSize + 32) / idxBits) + (bufSize + 32) % idxBits =
          64 * iin + 32 := by
        rw [Nat.mul_add]
        omega
      have hblt2 : B / 2 ^ (idxBits * (iout + (bufSize + 32) / idxBits)) %
          2 ^ ((bufSize + 32) % idxBits) < 2 ^ ((bufSize + 32) % idxBits) :=
        Nat.mod_lt _ (two_pow_pos' _)
      have hsmallB : ((packed iin % 2 ^ 64) >>> 32) <<< ((bufSize + 32) % idxBits) < 2 ^ 64 := by
        rw [Nat.shiftLeft_eq, hhi32]
        calc B / 2 ^ (64 * iin + 32) % 2 ^ 32 * 2 ^ ((bufSize + 32) % idxBits)
            < 2 ^ 32 * 2 ^ ((bufSize + 32) % idxBits) :=
              mul_lt_mul_of_pos_right (Nat.mod_lt _ (two_pow_pos' 32)) (two_pow_pos' _)
          _ = 2 ^ (32 + (bufSize + 32) % idxBits) := (pow_add 2 32 _).symm
          _ ≤ 2 ^ 64 := Nat.pow_le_pow_right (by omega) (by omega)
      have hbufB : B / 2 ^ (idxBits * (iout + (bufSize + 32) / idxBits)) %
            2 ^ ((bufSize + 32) % idxBits) |||
            (((packed iin % 2 ^ 64) >>> 32) <<< ((bufSize + 32) % idxBits)) % 2 ^ 64 =
          B / 2 ^ (idxBits * (iout + (bufSize + 32) / idxBits)) %
            2 ^ ((bufSize + 32) % idxBits + 32) := by
        rw [Nat.mod_eq_of_lt hsmallB, lor_shiftLeft_eq_add _ _ _ hblt2, hhi32,
          mod_pow_split, div_pow_div, hpos2]
      obtain ⟨ho2, hi2, hd2, hs2⟩ :=
        wcExtract_spec B idxBits h1 (4096 - (iout + (bufSize + 32) / idxBits))
          (iout + (bufSize + 32) / idxBits) _ ((bufSize + 32) % idxBits + 32)
          (by omega) (by omega) hbufB
      have hq2pos : 1 ≤ ((bufSize + 32) % idxBits + 32) / idxBits := by
        rw [Nat.le_div_iff_mul_le (by omega)]
        omega
      by_cases hc2 : 4096 ≤ iout + (bufSize + 32) / idxBits +
          ((bufSize + 32) % idxBits + 32) / idxBits
      · rw [if_pos (hd2.trans (decide_eq_true hc2))]
        rw [ho2, show min (((bufSize + 32) % idxBits + 32) / idxBits)
            (4096 - (iout + (bufSize + 32) / idxBits)) =
            4096 - (iout + (bufSize + 32) / idxBits) from by omega,
          ho1, ← List.map_append, List.range'_append_1,
          show 4096 - (iout + (bufSize + 32) / idxBits) + (bufSize + 32) / idxBits =
            4096 - iout from by omega]
      · rw [if_neg (by rw [hd2]; simpa using hc2)]
        rw [show min (((bufSize + 32) % idxBits + 32) / idxBits)
            (4096 - (iout + (bufSize + 32) / idxBits)) =
            ((bufSize + 32) % idxBits + 32) / idxBits from by omega] at ho2 hi2
        obtain ⟨hb2, hbs2⟩ := hs2 (by omega)
        rw [hb2, hbs2, hi2]
        have hdm2 := Nat.div_add_mod ((bufSize + 32) % idxBits + 32) idxBits
        have hinv2 : 64 * (iin + 1) =
            idxBits * (iout + (bufSize + 32) / idxBits +
              ((bufSize + 32) % idxBits + 32) / idxBits) +
              ((bufSize + 32) % idxBits + 32) % idxBits := by
          rw [Nat.mul_add, Nat.mul_add]
          omega
        rw [wcOuter_spec B packed idxBits h1 h16 hp fuel
          (iout + (bufSize + 32) / idxBits + ((bufSize + 32) % idxBits + 32) / idxBits)
          (iin + 1) _ _ (by omega) (by omega) (Nat.mod_lt _ (by omega)) hinv2 rfl]
        rw [ho1, ho2, ← List.map_append, List.range'_append_1,
          show iout + (bufSize + 32) / idxBits + ((bufSize + 32) % idxBits + 32) / idxBits =
            iout + (((bufSize + 32) % idxBits + 32) / idxBits + (bufSize + 32) / idxBits)
            from by omega,
          ← List.map_append, List.range'_append_1,
          show 4096 - (iout + (((bufSize + 32) % idxBits + 32) / idxBits +
              (bufSize + 32) / idxBits)) +
              (((bufSize + 32) % idxBits + 32) / idxBits + (bufSize + 32) / idxBits) =
            4096 - iout from by omega]

/-- `unpack_block_idxs_wc` on the words of a stream `B` emits the 4096
low `idxBits`-wide chunks of `B`, for any width in `[1, 16]`. -/
theorem unpack_wc_words (B : Nat) (packed : Nat → Nat) (idxBits : Nat)
    (h1 : 1 ≤ idxBits) (h16 : idxBits ≤ 16)
    (hp : ∀ i, packed i % 2 ^ 64 = B / 2 ^ (64 * i) % 2 ^ 64) :
    unpack_block_idxs_wc packed idxBits = (List.range 4096).map (chunkAt B idxBits) := by
  rw [unpack_block_idxs_wc, if_neg (by omega), shiftLeft_one_sub_one,
    wcOuter_spec B packed idxBits h1 h16 hp 4096 0 0 0 0 (by omega) (by omega) (by omega)
      (by simp) (by simp [Nat.mod_one]),
    List.range_eq_range']

/-- The wc loop with fuel `fuel` starting at word `iin` reads only the
words `iin, ..., iin + fuel - 1`. -/
theorem wcOuter_agree (packed packed2 : Nat → Nat) (idxBits mask : Nat) :
    ∀ (fuel iout iin buf bufSize : Nat),
      (∀ i, iin ≤ i → i < iin + fuel → packed i % 2 ^ 64 = packed2 i % 2 ^ 64) →
      wcOuter packed idxBits mask fuel iout iin buf bufSize =
        wcOuter packed2 idxBits mask fuel iout iin buf bufSize
  | 0, _, _, _, _, _ => rfl
  | fuel + 1, iout, iin, buf, bufSize, ha => by
    have hw : packed iin % 2 ^ 64 = packed2 iin % 2 ^ 64 := ha iin (le_refl _) (by omega)
    have ih : ∀ io b bs, wcOuter packed idxBits mask fuel io (iin + 1) b bs =
        wcOuter packed2 idxBits mask fuel io (iin + 1) b bs :=
      fun io b bs => wcOuter_agree packed packed2 idxBits mask fuel io (iin + 1) b bs
        (fun i hi1 hi2 => ha i (by omega) (by omega))
    simp only [wcOuter]
    rw [hw, ih]

/-- Word `i` of `streamOf packed` is `packed i` (masked), `i < 4096`. -/
theorem streamOf_word (packed : Nat → Nat) (i : Nat) (hi : i < 4096) :
    streamOf packed / 2 ^ (64 * i) % 2 ^ 64 = packed i % 2 ^ 64 := by
  rw [streamOf, bitConcat_chunk 64 ((List.range 4096).map packed) i]
  have hg : List.getD ((List.range 4096).map packed) i 0 = packed i := by
    rw [List.getD_eq_getElem?_getD, List.getElem?_map, List.getElem?_range hi]
    rfl
  rw [hg]

theorem streamOf_lt (packed : Nat → Nat) : streamOf packed < 2 ^ (64 * 4096) := by
  simpa using bitConcat_lt 64 ((List.range 4096).map packed)

theorem streamOf_word_hi (packed : Nat → Nat) (i : Nat) (hi : 4096 ≤ i) :
    streamOf packed / 2 ^ (64 * i) % 2 ^ 64 = 0 := by
  rw [Nat.div_eq_of_lt
    (lt_of_lt_of_le (streamOf_lt packed) (Nat.pow_le_pow_right (by omega) (by omega)))]
  simp

/-- Characterization of `unpack_block_idxs_wc` on an arbitrary word
buffer: it emits the 4096 `idxBits`-wide chunks of the continuous
little-endian bitstream built from (the first 4096) words. -/
theorem unpack_wc_eq (packed : Nat → Nat) (idxBits : Nat)
    (h1 : 1 ≤ idxBits) (h16 : idxBits ≤ 16) :
    unpack_block_idxs_wc packed idxBits =
      (List.range 4096).map (chunkAt (streamOf packed) idxBits) := by
  have hagree : unpack_block_idxs_wc packed idxBits =
      unpack_block_idxs_wc (fun i => if i < 4096 then packed i else 0) idxBits := by
    rw [unpack_block_idxs_wc, unpack_block_idxs_wc, if_neg (by omega), if_neg (by omega)]
    exact wcOuter_agree _ _ _ _ 4096 0 0 0 0
      (fun i hi1 hi2 => by rw [if_pos (show i < 4096 by omega)])
  rw [hagree]
  apply unpack_wc_words (streamOf packed) _ idxBits h1 h16
  intro i
  by_cases hi : i < 4096
  · rw [if_pos hi]
    exact (streamOf_word packed i hi).symm
  · rw [if_neg hi, streamOf_word_hi packed i (by omega)]
    simp

theorem range'_eq_map_add (s n : Nat) : List.range' s n = (List.range n).map (s + ·) := by
  rw [List.range_eq_range', List.map_add_range', Nat.add_zero]

/-! Behaviour of the no-carry extraction loop on one word. -/

theorem ncExtract_spec (idxBits : Nat) (h1 : 1 ≤ idxBits) :
    ∀ (n i iout buf : Nat), iout + n = 4096 → iout < 4096 →
      (ncExtract idxBits (2 ^ idxBits - 1) i iout buf).outs =
          (List.range (min (i / idxBits) (4096 - iout))).map
            (fun t => buf / 2 ^ (idxBits * t) % 2 ^ idxBits) ∧
        (ncExtract idxBits (2 ^ idxBits - 1) i iout buf).iout =
          iout + min (i / idxBits) (4096 - iout) ∧
        (ncExtract idxBits (2 ^ idxBits - 1) i iout buf).done =
          decide (4096 ≤ iout + i / idxBits)
  | 0, i, iout, buf, hn, hlt => absurd hn (by omega)
  | n + 1, i, iout, buf, hn, hlt => by
    by_cases hid : i < idxBits
    · have hstep : ncExtract idxBits (2 ^ idxBits - 1) i iout buf = ⟨[], iout, false⟩ := by
        rw [ncExtract]
        simp only [if_pos hid]
      have hq : i / idxBits = 0 := Nat.div_eq_of_lt hid
      rw [hstep, hq]
      exact ⟨by simp, by simp, (decide_eq_false (by omega)).symm⟩
    · have hvv : buf &&& (2 ^ idxBits - 1) = buf / 2 ^ (idxBits * 0) % 2 ^ idxBits := by
        rw [and_mask_eq_mod]
        simp
      have hq1 : 1 ≤ i / idxBits := by
        rw [Nat.le_div_iff_mul_le (by omega)]
        omega
      by_cases h4 : 4096 ≤ iout + 1
      · have hstep : ncExtract idxBits (2 ^ idxBits - 1) i iout buf =
            ⟨[buf &&& (2 ^ idxBits - 1)], iout + 1, true⟩ := by
          rw [ncExtract]
          simp only [if_neg hid, dif_pos h4]
        have hmin : min (i / idxBits) (4096 - iout) = 1 := by omega
        rw [hstep, hmin]
        refine ⟨?_, by simp, (decide_eq_true (by omega)).symm⟩
        simp [hvv, List.range_succ]
      · have hstep : ncExtract idxBits (2 ^ idxBits - 1) i iout buf =
            ⟨(buf &&& (2 ^ idxBits - 1)) ::
                (ncExtract idxBits (2 ^ idxBits - 1) (i - idxBits) (iout + 1)
                  (buf >>> idxBits)).outs,
              (ncExtract idxBits (2 ^ idxBits - 1) (i - idxBits) (iout + 1)
                (buf >>> idxBits)).iout,
              (ncExtract idxBits (2 ^ idxBits - 1) (i - idxBits) (iout + 1)
                (buf >>> idxBits)).done⟩ := by
          rw [ncExtract]
          simp only [if_neg hid, dif_neg h4]
        obtain ⟨iho, ihi, ihd⟩ :=
          ncExtract_spec idxBits h1 n (i - idxBits) (iout + 1) (buf >>> idxBits)
            (by omega) (by omega)
        have hqrec : i / idxBits = (i - idxBits) / idxBits + 1 :=
          Nat.div_eq_sub_div (by omega) (by omega)
        have hminrec : min (i / idxBits) (4096 - iout) =
            min ((i - idxBits) / idxBits) (4096 - (iout + 1)) + 1 := by omega
        rw [hstep]
        refine ⟨?_, ?_, ?_⟩
        · show _ :: _ = _
          rw [iho, hminrec, List.range_succ_eq_map, List.map_cons, List.map_map, hvv]
          congr 1
          refine List.map_congr_left fun t _ => ?_
          simp only [Function.comp_apply]
          rw [Nat.shiftRight_eq_div_pow, div_pow_div,
            show idxBits + idxBits * t = idxBits * (t + 1) by ring]
        · show (ncExtract _ _ _ _ _).iout = _
          rw [ihi]
          omega
        · show (ncExtract _ _ _ _ _).done = _
          rw [ihd]
          simp only [decide_eq_decide]
          omega

/-! Behaviour of the no-carry word loop.  Invariant: each earlier word
contributed exactly `64 / idxBits` values, so `iout = (64/idxBits) * iin`. -/

theorem ncOuter_spec (packed : Nat → Nat) (idxBits : Nat)
    (h1 : 1 ≤ idxBits) (h16 : idxBits ≤ 16) :
    ∀ (fuel iout iin : Nat),
      iout < 4096 → 4096 ≤ iout + fuel → iout = 64 / idxBits * iin →
      ncOuter packed idxBits (2 ^ idxBits - 1) fuel iout iin =
        (List.range' iout (4096 - iout)).map fun k =>
          packed (k / (64 / idxBits)) % 2 ^ 64 /
            2 ^ (idxBits * (k % (64 / idxBits))) % 2 ^ idxBits
  | 0, iout, iin, hlt, hfuel, hio => absurd hfuel (by omega)
  | fuel + 1, iout, iin, hlt, hfuel, hio => by
    have hvpw : 1 ≤ 64 / idxBits := by
      rw [Nat.le_div_iff_mul_le (by omega)]
      omega
    obtain ⟨ho, hi, hd⟩ :=
      ncExtract_spec idxBits h1 (4096 - iout) 64 iout (packed iin % 2 ^ 64) (by omega) hlt
    have hconv : ∀ m, m ≤ 64 / idxBits →
        ((List.range m).map
          fun t => packed iin % 2 ^ 64 / 2 ^ (idxBits * t) % 2 ^ idxBits) =
        (List.range' iout m).map fun k =>
          packed (k / (64 / idxBits)) % 2 ^ 64 /
            2 ^ (idxBits * (k % (64 / idxBits))) % 2 ^ idxBits := by
      intro m hm
      rw [range'_eq_map_add, List.map_map]
      refine List.map_congr_left fun t ht => ?_
      have htm : t < m := List.mem_range.mp ht
      have hdt : (iout + t) / (64 / idxBits) = iin := by
        rw [hio, Nat.mul_add_div (by omega), Nat.div_eq_of_lt (by omega), Nat.add_zero]
      have hmt : (iout + t) % (64 / idxBits) = t := by
        rw [hio, Nat.mul_add_mod, Nat.mod_eq_of_lt (by omega)]
      simp only [Function.comp_apply]
      rw [hdt, hmt]
    simp only [ncOuter]
    by_cases hc : 4096 ≤ iout + 64 / idxBits
    · rw [if_pos (hd.trans (decide_eq_true hc))]
      rw [ho, show min (64 / idxBits) (4096 - iout) = 4096 - iout from by omega,
        hconv (4096 - iout) (by omega)]
    · rw [if_neg (by rw [hd]; simpa using hc)]
      rw [show min (64 / idxBits) (4096 - iout) = 64 / idxBits from by omega] at ho hi
      rw [hi, ho, hconv (64 / idxBits) le_rfl,
        ncOuter_spec packed idxBits h1 h16 fuel (iout + 64 / idxBits) (iin + 1)
          (by omega) (by omega) (by rw [hio]; ring),
        ← List.map_append, List.range'_append_1,
        show 4096 - (iout + 64 / idxBits) + 64 / idxBits = 4096 - iout from by omega]

/-- Characterization of `unpack_block_idxs_nc` on an arbitrary word
buffer: value `k` is the `(k mod vpw)`-th chunk of word `k / vpw`,
`vpw = 64 / idxBits`. -/
theorem unpack_nc_eq (packed : Nat → Nat) (idxBits : Nat)
    (h1 : 1 ≤ idxBits) (h16 : idxBits ≤ 16) :
    unpack_block_idxs_nc packed idxBits =
      (List.range 4096).map fun k =>
        packed (k / (64 / idxBits)) % 2 ^ 64 /
          2 ^ (idxBits * (k % (64 / idxBits))) % 2 ^ idxBits := by
  rw [unpack_block_idxs_nc, if_neg (by omega), shiftLeft_one_sub_one,
    ncOuter_spec packed idxBits h1 h16 4096 0 0 (by omega) (by omega) (by simp),
    List.range_eq_range']

theorem unpack_wc_length (packed : Nat → Nat) (idxBits : Nat)
    (h1 : 1 ≤ idxBits) (h16 : idxBits ≤ 16) :
    (unpack_block_idxs_wc packed idxBits).length = 4096 := by
  rw [unpack_wc_eq packed idxBits h1 h16]
  simp

theorem unpack_nc_length (packed : Nat → Nat) (idxBits : Nat)
    (h1 : 1 ≤ idxBits) (h16 : idxBits ≤ 16) :
    (unpack_block_idxs_nc packed idxBits).length = 4096 := by
  rw [unpack_nc_eq packed idxBits h1 h16]
  simp

theorem map_range_getD (vs : List Nat) (hlen : vs.length ≤ 4096) :
    (((List.range 4096).map fun k => vs.getD k 0).take vs.length) = vs := by
  refine List.ext_getElem ?_ fun n h1 h2 => ?_
  · rw [List.length_take, List.length_map, List.length_range]
    omega
  · simp only [List.getElem_take, List.getElem_map, List.getElem_range]
    exact List.getD_eq_getElem _ _ h2

theorem bitConcat_chunk_eq (idxBits : Nat) (vs : List Nat)
    (hv : ∀ v ∈ vs, v < 2 ^ idxBits) (k : Nat) :
    bitConcat idxBits vs / 2 ^ (idxBits * k) % 2 ^ idxBits = vs.getD k 0 := by
  rw [bitConcat_chunk]
  by_cases hk : k < vs.length
  · rw [List.getD_eq_getElem _ _ hk]
    exact Nat.mod_eq_of_lt (hv _ (List.getElem_mem _))
  · rw [List.getD_eq_default _ _ (by omega)]
    exact Nat.zero_mod _

/-- C1: for every bit width `idxBits` in `[4, 16]` and every sequence
of values each `< 2 ^ idxBits` (at most the 4096 the unpackers emit),
packing under the with-carry convention and running
`unpack_block_idxs_wc` reproduces the values exactly, and packing under
the no-carry convention and running `unpack_block_idxs_nc` reproduces
them exactly. -/
theorem C1_bitstream_roundTrip (idxBits : Nat) (vs : List Nat) (h4 : 4 ≤ idxBits)
    (h16 : idxBits ≤ 16) (hlen : vs.length ≤ 4096) (hv : ∀ v ∈ vs, v < 2 ^ idxBits) :
    (unpack_block_idxs_wc (pack_wc idxBits vs) idxBits).take vs.length = vs ∧
      (unpack_block_idxs_nc (pack_nc idxBits vs) idxBits).take vs.length = vs := by
  have hvpw : 1 ≤ 64 / idxBits := by
    rw [Nat.le_div_iff_mul_le (by omega)]
    omega
  constructor
  · rw [unpack_wc_words (bitConcat idxBits vs) (pack_wc idxBits vs) idxBits (by omega) h16
      (fun i => mod_pow_mod _ 64 64 le_rfl)]
    have hpt : ∀ k ∈ List.range 4096,
        chunkAt (bitConcat idxBits vs) idxBits k = vs.getD k 0 :=
      fun k _ => bitConcat_chunk_eq idxBits vs hv k
    rw [List.map_congr_left hpt]
    exact map_range_getD vs hlen
  · rw [unpack_nc_eq (pack_nc idxBits vs) idxBits (by omega) h16]
    have hpt : ∀ k ∈ List.range 4096,
        pack_nc idxBits vs (k / (64 / idxBits)) % 2 ^ 64 /
          2 ^ (idxBits * (k % (64 / idxBits))) % 2 ^ idxBits = vs.getD k 0 := by
      intro k _
      have hword : pack_nc idxBits vs (k / (64 / idxBits)) < 2 ^ 64 := by
        refine lt_of_lt_of_le (bitConcat_lt idxBits _) (Nat.pow_le_pow_right (by omega) ?_)
        have hl : ((vs.drop (k / (64 / idxBits) * (64 / idxBits))).take
            (64 / idxBits)).length ≤ 64 / idxBits := List.length_take_le _ _
        calc idxBits * _ ≤ idxBits * (64 / idxBits) := Nat.mul_le_mul_left _ hl
          _ ≤ 64 := by
              rw [Nat.mul_comm]
              exact Nat.div_mul_le_self 64 idxBits
      rw [Nat.mod_eq_of_lt hword]
      simp only [pack_nc]
      rw [bitConcat_chunk_eq idxBits _
        (fun v hvm => hv v (List.mem_of_mem_drop (List.mem_of_mem_take hvm))) _,
        List.getD_eq_getElem?_getD, List.getElem?_take_of_lt (Nat.mod_lt _ (by omega)),
        List.getElem?_drop,
        show k / (64 / idxBits) * (64 / idxBits) + k % (64 / idxBits) = k from by
          rw [Nat.mul_comm]
          exact Nat.div_add_mod k (64 / idxBits),
        ← List.getD_eq_getElem?_getD]
    rw [List.map_congr_left hpt]
    exact map_range_getD vs hlen

theorem C1_bitstream_roundTrip_witness :
    (unpack_block_idxs_wc (pack_wc 5 [1, 31, 7]) 5).take 3 = [1, 31, 7] ∧
      (unpack_block_idxs_nc (pack_nc 5 [1, 31, 7]) 5).take 3 = [1, 31, 7] :=
  C1_bitstream_roundTrip 5 [1, 31, 7] (by decide) (by decide) (by decide) (by decide)

theorem chunkAt_mod (B w k N : Nat) (h : w * k + w ≤ N) :
    chunkAt (B % 2 ^ N) w k = chunkAt B w k := by
  rw [chunkAt, chunkAt, mod_pow_div _ _ _ (by omega), mod_pow_mod _ _ _ (by omega)]

theorem streamOf_take_eq (packed packed2 : Nat → Nat)
    (ha : ∀ i, i < 1024 → packed i = packed2 i) :
    streamOf packed % 2 ^ (64 * 1024) = streamOf packed2 % 2 ^ (64 * 1024) := by
  rw [streamOf, streamOf, bitConcat_mod, bitConcat_mod]
  apply congrArg
  rw [← List.map_take, ← List.map_take, List.take_range]
  exact List.map_congr_left fun i hi => ha i (by
    have := List.mem_range.mp hi
    omega)

theorem unpack_wc_agree1024 (packed packed2 : Nat → Nat) (idxBits : Nat)
    (h1 : 1 ≤ idxBits) (h16 : idxBits ≤ 16) (ha : ∀ i, i < 1024 → packed i = packed2 i) :
    unpack_block_idxs_wc packed idxBits = unpack_block_idxs_wc packed2 idxBits := by
  rw [unpack_wc_eq packed idxBits h1 h16, unpack_wc_eq packed2 idxBits h1 h16]
  refine List.map_congr_left fun k hk => ?_
  have hk4 : k < 4096 := List.mem_range.mp hk
  have hb : idxBits * k + idxBits ≤ 64 * 1024 := by
    have hm : idxBits * (k + 1) ≤ 16 * 4096 := Nat.mul_le_mul h16 (by omega)
    calc idxBits * k + idxBits = idxBits * (k + 1) := by ring
      _ ≤ 16 * 4096 := hm
      _ ≤ 64 * 1024 := by norm_num
  rw [← chunkAt_mod (streamOf packed) idxBits k (64 * 1024) hb,
    ← chunkAt_mod (streamOf packed2) idxBits k (64 * 1024) hb,
    streamOf_take_eq packed packed2 ha]

theorem unpack_nc_agree1024 (packed packed2 : Nat → Nat) (idxBits : Nat)
    (h1 : 1 ≤ idxBits) (h16 : idxBits ≤ 16) (ha : ∀ i, i < 1024 → packed i = packed2 i) :
    unpack_block_idxs_nc packed idxBits = unpack_block_idxs_nc packed2 idxBits := by
  rw [unpack_nc_eq packed idxBits h1 h16, unpack_nc_eq packed2 idxBits h1 h16]
  refine List.map_congr_left fun k hk => ?_
  have hk4 : k < 4096 := List.mem_range.mp hk
  have hvpw : 4 ≤ 64 / idxBits := by
    calc (4:Nat) = 64 / 16 := by norm_num
      _ ≤ 64 / idxBits := Nat.div_le_div_left h16 (by omega)
  have hq : k / (64 / idxBits) < 1024 := by
    apply Nat.div_lt_of_lt_mul
    calc k < 4096 := hk4
      _ = 4 * 1024 := by norm_num
      _ ≤ 64 / idxBits * 1024 := mul_le_mul_right' hvpw 1024
  rw [ha _ hq]

/-- C6: for every width in `[4, 16]`, both unpackers write exactly 4096
values and stop there; words past the first 1024 (the most either loop
can consume before the 4096th value) never affect the output. -/
theorem C6_unpacker_termination (idxBits : Nat) (h4 : 4 ≤ idxBits) (h16 : idxBits ≤ 16) :
    (∀ packed : Nat → Nat, (unpack_block_idxs_wc packed idxBits).length = 4096 ∧
        (unpack_block_idxs_nc packed idxBits).length = 4096) ∧
      ∀ packed packed2 : Nat → Nat, (∀ i, i < 1024 → packed i = packed2 i) →
        unpack_block_idxs_wc packed idxBits = unpack_block_idxs_wc packed2 idxBits ∧
          unpack_block_idxs_nc packed idxBits = unpack_block_idxs_nc packed2 idxBits :=
  ⟨fun packed => ⟨unpack_wc_length packed idxBits (by omega) h16,
      unpack_nc_length packed idxBits (by omega) h16⟩,
    fun packed packed2 ha => ⟨unpack_wc_agree1024 packed packed2 idxBits (by omega) h16 ha,
      unpack_nc_agree1024 packed packed2 idxBits (by omega) h16 ha⟩⟩

theorem C6_unpacker_termination_witness :
    (unpack_block_idxs_wc (fun _ => 0) 4).length = 4096 ∧
      (unpack_block_idxs_nc (fun _ => 0) 4).length = 4096 :=
  (C6_unpacker_termination 4 (by decide) (by decide)).1 fun _ => 0

theorem wcExtract_outs_ne (idxBits mask iout buf bufSize : Nat) (h : ¬bufSize < idxBits) :
    (wcExtract idxBits mask iout buf bufSize).outs ≠ [] := by
  rw [wcExtract]
  by_cases h4 : 4096 ≤ iout + 1
  · simp only [if_neg h, dif_pos h4]
    simp
  · simp only [if_neg h, dif_neg h4]
    simp

theorem ncExtract_outs_ne (idxBits mask i iout buf : Nat) (h : ¬i < idxBits) :
    (ncExtract idxBits mask i iout buf).outs ≠ [] := by
  rw [ncExtract]
  by_cases h4 : 4096 ≤ iout + 1
  · simp only [if_neg h, dif_pos h4]
    simp
  · simp only [if_neg h, dif_neg h4]
    simp

theorem wcOuter_ne_nil (packed : Nat → Nat) (idxBits mask : Nat) (h16 : idxBits ≤ 16)
    (fuel iout iin buf bufSize : Nat) :
    wcOuter packed idxBits mask (fuel + 1) iout iin buf bufSize ≠ [] := by
  simp only [wcOuter]
  have hne := wcExtract_outs_ne idxBits mask iout
    (buf ||| ((packed iin % 2 ^ 64 % 2 ^ 32) <<< bufSize) % 2 ^ 64) (bufSize + 32) (by omega)
  split
  · exact hne
  · split
    · intro hc
      simp only [List.append_eq_nil] at hc
      exact hne hc.1
    · intro hc
      simp only [List.append_eq_nil] at hc
      exact hne hc.1.1

theorem ncOuter_ne_nil (packed : Nat → Nat) (idxBits mask : Nat) (h16 : idxBits ≤ 16)
    (fuel iout iin : Nat) :
    ncOuter packed idxBits mask (fuel + 1) iout iin ≠ [] := by
  simp only [ncOuter]
  have hne := ncExtract_outs_ne idxBits mask 64 iout (packed iin % 2 ^ 64) (by omega)
  split
  · exact hne
  · intro hc
    simp only [List.append_eq_nil] at hc
    exact hne hc.1

/-- C8: for `idxBits > 16` both unpackers return immediately with the
output untouched (no write at all, and no signalled error), and that is
the only width for which no output is produced: every `idxBits ≤ 16`
produces output. -/
theorem C8_width_guard (packed : Nat → Nat) (idxBits : Nat) :
    (17 ≤ idxBits → unpack_block_idxs_wc packed idxBits = [] ∧
        unpack_block_idxs_nc packed idxBits = []) ∧
      (idxBits ≤ 16 → unpack_block_idxs_wc packed idxBits ≠ [] ∧
        unpack_block_idxs_nc packed idxBits ≠ []) := by
  constructor
  · intro h17
    rw [unpack_block_idxs_wc, if_pos (by omega), unpack_block_idxs_nc, if_pos (by omega)]
    exact ⟨rfl, rfl⟩
  · intro h16
    constructor
    · rw [unpack_block_idxs_wc, if_neg (by omega), show (4096 : Nat) = 4095 + 1 from rfl]
      exact wcOuter_ne_nil packed idxBits ((1 <<< idxBits) - 1) h16 4095 0 0 0 0
    · rw [unpack_block_idxs_nc, if_neg (by omega), show (4096 : Nat) = 4095 + 1 from rfl]
      exact ncOuter_ne_nil packed idxBits ((1 <<< idxBits) - 1) h16 4095 0 0

theorem C8_width_guard_witness :
    unpack_block_idxs_wc (fun _ => 0) 17 = [] ∧ unpack_block_idxs_nc (fun _ => 0) 17 = [] ∧
      unpack_block_idxs_wc (fun _ => 0) 16 ≠ [] ∧
      unpack_block_idxs_nc (fun _ => 0) 16 ≠ [] :=
  ⟨((C8_width_guard (fun _ => 0) 17).1 (by decide)).1,
    ((C8_width_guard (fun _ => 0) 17).1 (by decide)).2,
    ((C8_width_guard (fun _ => 0) 16).2 (by decide)).1,
    ((C8_width_guard (fun _ => 0) 16).2 (by decide)).2⟩

theorem wc_eq_nc_of_dvd (packed : Nat → Nat) (idxBits : Nat)
    (h1 : 1 ≤ idxBits) (h16 : idxBits ≤ 16) (hdvd : idxBits ∣ 64) :
    unpack_block_idxs_wc packed idxBits = unpack_block_idxs_nc packed idxBits := by
  rw [unpack_wc_eq packed idxBits h1 h16, unpack_nc_eq packed idxBits h1 h16]
  refine List.map_congr_left fun k hk => ?_
  have hk4 : k < 4096 := List.mem_range.mp hk
  have hvpw : idxBits * (64 / idxBits) = 64 := Nat.mul_div_cancel' hdvd
  have hq : k / (64 / idxBits) < 4096 := lt_of_le_of_lt (Nat.div_le_self _ _) hk4
  have hmlt : k % (64 / idxBits) < 64 / idxBits :=
    Nat.mod_lt _ (Nat.div_pos (by omega) (by omega))
  have hts : idxBits * (k % (64 / idxBits)) + idxBits ≤ 64 := by
    calc idxBits * (k % (64 / idxBits)) + idxBits
        = idxBits * (k % (64 / idxBits) + 1) := by ring
      _ ≤ idxBits * (64 / idxBits) := Nat.mul_le_mul_left _ (by omega)
      _ = 64 := hvpw
  have hdecomp : idxBits * k =
      64 * (k / (64 / idxBits)) + idxBits * (k % (64 / idxBits)) := by
    conv_lhs => rw [show k = 64 / idxBits * (k / (64 / idxBits)) + k % (64 / idxBits) from
      (Nat.div_add_mod k (64 / idxBits)).symm]
    rw [Nat.mul_add, ← Nat.mul_assoc, hvpw]
  rw [chunkAt, hdecomp, ← div_pow_div, ← streamOf_word packed _ hq,
    mod_pow_div _ _ _ (by omega), mod_pow_mod _ _ _ (by omega)]

/-- C10: at the widths 4, 8 and 16 (the supported widths dividing 32),
the two carry conventions unpack identically on every word buffer, and
hence the two carry-mode settings of `dsci_v13` produce identical
histograms on identical inputs. -/
theorem C10_carry_agreement :
    (∀ (packed : Nat → Nat) (idxBits : Nat), idxBits = 4 ∨ idxBits = 8 ∨ idxBits = 16 →
        unpack_block_idxs_wc packed idxBits = unpack_block_idxs_nc packed idxBits) ∧
      ∀ (blockCount : Nat → Nat) (idLim ySection : Nat)
        (blockStates paletteMap : Nat → Nat) (maxPaletteIdx : Nat),
        computeIdxBits maxPaletteIdx = 4 ∨ computeIdxBits maxPaletteIdx = 8 ∨
          computeIdxBits maxPaletteIdx = 16 →
        dsci_v13 blockCount idLim ySection blockStates paletteMap maxPaletteIdx true =
          dsci_v13 blockCount idLim ySection blockStates paletteMap maxPaletteIdx false := by
  have hmain : ∀ (packed : Nat → Nat) (idxBits : Nat),
      idxBits = 4 ∨ idxBits = 8 ∨ idxBits = 16 →
      unpack_block_idxs_wc packed idxBits = unpack_block_idxs_nc packed idxBits := by
    intro packed idxBits h
    rcases h with h | h | h <;> subst h <;>
      exact wc_eq_nc_of_dvd packed _ (by omega) (by omega) (by decide)
  refine ⟨hmain, ?_⟩
  intro blockCount idLim ySection blockStates paletteMap maxPaletteIdx h
  rw [dsci_v13, dsci_v13, unpackedIdxs, unpackedIdxs, if_pos rfl,
    if_neg (by simp), hmain blockStates (computeIdxBits maxPaletteIdx) h]

theorem C10_carry_agreement_witness :
    unpack_block_idxs_wc (fun _ => 0) 4 = unpack_block_idxs_nc (fun _ => 0) 4 ∧
      dsci_v13 (fun _ => 0) (2 ^ 17) 0 (fun _ => 0) (fun _ => 0) 0 true =
        dsci_v13 (fun _ => 0) (2 ^ 17) 0 (fun _ => 0) (fun _ => 0) 0 false :=
  ⟨C10_carry_agreement.1 (fun _ => 0) 4 (Or.inl rfl),
    C10_carry_agreement.2 (fun _ => 0) (2 ^ 17) 0 (fun _ => 0) (fun _ => 0) 0
      (Or.inl (by decide))⟩

/-! The width search: on the UB-free input range it computes the least
sufficient width `≥ 4`. -/

theorem idxBitsLoop_spec : ∀ (fuel b maxP1 : Nat), 1 ≤ maxP1 → maxP1 ≤ 2 ^ 31 →
    b ≤ 31 → 32 ≤ b + fuel →
    b ≤ idxBitsLoop maxP1 b fuel ∧ maxP1 ≤ 2 ^ idxBitsLoop maxP1 b fuel ∧
      ∀ c, b ≤ c → maxP1 ≤ 2 ^ c → idxBitsLoop maxP1 b fuel ≤ c
  | 0, b, maxP1, _, _, hb, hf => absurd hf (by omega)
  | fuel + 1, b, maxP1, h1, h2, hb, hf => by
    have hshift : (1 <<< b) % 2 ^ 32 = 2 ^ b := by
      rw [Nat.shiftLeft_eq, Nat.one_mul]
      exact Nat.mod_eq_of_lt ((Nat.pow_lt_pow_iff_right (by omega)).mpr (by omega))
    simp only [idxBitsLoop, hshift]
    by_cases hlt : 2 ^ b < maxP1
    · rw [if_pos hlt]
      have hb31 : b < 31 := (Nat.pow_lt_pow_iff_right (by omega)).mp (lt_of_lt_of_le hlt h2)
      obtain ⟨ih1, ih2, ih3⟩ := idxBitsLoop_spec fuel (b + 1) maxP1 h1 h2 (by omega) (by omega)
      refine ⟨by omega, ih2, fun c hc1 hc2 => ?_⟩
      rcases Nat.eq_or_lt_of_le hc1 with he | hgt
      · rw [← he] at hc2
        omega
      · exact ih3 c (by omega) hc2
    · rw [if_neg hlt]
      exact ⟨Nat.le_refl b, by omega, fun c hc1 _ => hc1⟩

theorem computeIdxBits_spec (maxPaletteIdx : Nat) (h : maxPaletteIdx < 2 ^ 31) :
    4 ≤ computeIdxBits maxPaletteIdx ∧
      maxPaletteIdx + 1 ≤ 2 ^ computeIdxBits maxPaletteIdx ∧
      ∀ c, 4 ≤ c → maxPaletteIdx + 1 ≤ 2 ^ c → computeIdxBits maxPaletteIdx ≤ c := by
  have hm : (maxPaletteIdx % 2 ^ 32 + 1) % 2 ^ 32 = maxPaletteIdx + 1 := by
    rw [Nat.mod_eq_of_lt (show maxPaletteIdx < 2 ^ 32 by omega)]
    exact Nat.mod_eq_of_lt (by omega)
  rw [computeIdxBits, hm]
  exact idxBitsLoop_spec 28 4 (maxPaletteIdx + 1) (by omega) (by omega) (by omega) (by omega)

theorem computeIdxBits_range (maxPaletteIdx : Nat) (h : maxPaletteIdx + 1 ≤ 2 ^ 16) :
    4 ≤ computeIdxBits maxPaletteIdx ∧ computeIdxBits maxPaletteIdx ≤ 16 := by
  obtain ⟨h4, _, hmin⟩ := computeIdxBits_spec maxPaletteIdx (by omega)
  exact ⟨h4, hmin 16 (by omega) (by omega)⟩

/-- C5 counterexample: at `maxPaletteIdx = 2 ^ 32 - 1` (a valid
`uint32_t` input), `maxPaletteIdx + 1` wraps to `0` in the `uint32`
comparison, the width loop exits immediately, and the computed width 4
does not satisfy `2 ^ idxBits ≥ maxPaletteIdx + 1` (the smallest such
width `≥ 4` would be 32). -/
theorem C5_width_counterexample :
    computeIdxBits (2 ^ 32 - 1) = 4 ∧
      ¬(2 ^ 32 - 1 + 1 ≤ 2 ^ computeIdxBits (2 ^ 32 - 1)) := by
  refine ⟨by decide, ?_⟩
  rw [show computeIdxBits (2 ^ 32 - 1) = 4 from by decide]
  decide

/-- C5 (amended): for every `maxPaletteIdx < 2 ^ 31` — the range on
which the C width search is free of undefined behaviour and of the
`maxPaletteIdx + 1` wraparound, and which covers all valid palette
sizes — the computed `idxBits` is the smallest value `≥ 4` with
`2 ^ idxBits ≥ maxPaletteIdx + 1`; in particular 15 ↦ 4, 16 ↦ 5,
255 ↦ 8, 256 ↦ 9. -/
theorem C5_width_selection (maxPaletteIdx : Nat) (h : maxPaletteIdx < 2 ^ 31) :
    (4 ≤ computeIdxBits maxPaletteIdx ∧
        maxPaletteIdx + 1 ≤ 2 ^ computeIdxBits maxPaletteIdx ∧
        ∀ c, 4 ≤ c → maxPaletteIdx + 1 ≤ 2 ^ c → computeIdxBits maxPaletteIdx ≤ c) ∧
      computeIdxBits 15 = 4 ∧ computeIdxBits 16 = 5 ∧
        computeIdxBits 255 = 8 ∧ computeIdxBits 256 = 9 :=
  ⟨computeIdxBits_spec maxPaletteIdx h, by decide, by decide, by decide, by decide⟩

theorem C5_width_selection_witness :
    (4 ≤ computeIdxBits 255 ∧ 255 + 1 ≤ 2 ^ computeIdxBits 255 ∧
        ∀ c, 4 ≤ c → 255 + 1 ≤ 2 ^ c → computeIdxBits 255 ≤ c) ∧
      computeIdxBits 15 = 4 ∧ computeIdxBits 16 = 5 ∧
        computeIdxBits 255 = 8 ∧ computeIdxBits 256 = 9 :=
  C5_width_selection 255 (by decide)

theorem flatMap_congr {α β : Type} (l : List α) (f g : α → List β)
    (h : ∀ a ∈ l, f a = g a) : l.flatMap f = l.flatMap g := by
  simp only [List.flatMap]
  rw [List.map_congr_left h]

theorem shiftLeft_lor_small (a b s : Nat) (hb : b < 2 ^ s) :
    (a <<< s) ||| b = a * 2 ^ s + b := by
  rw [Nat.shiftLeft_eq, Nat.mul_comm a (2 ^ s), ← Nat.mul_add_lt_is_or hb a]

theorem nib_lo (x : Nat) : NIBBLE_LO (x % 2 ^ 8) = x % 256 % 16 := by
  rw [NIBBLE_LO, show (0xf : Nat) = 2 ^ 4 - 1 from rfl, and_mask_eq_mod]
  norm_num

theorem nib_hi (x : Nat) : NIBBLE_HI (x % 2 ^ 8) = x % 256 / 16 := by
  rw [NIBBLE_HI, show (0xf : Nat) = 2 ^ 4 - 1 from rfl, Nat.shiftRight_eq_div_pow,
    and_mask_eq_mod]
  have hlt : x % 2 ^ 8 / 2 ^ 4 < 2 ^ 4 := by
    apply Nat.div_lt_of_lt_mul
    have := Nat.mod_lt x (show 0 < 2 ^ 8 by omega)
    omega
  rw [Nat.mod_eq_of_lt hlt]
  norm_num

theorem v0_cell_lo (b m : Nat) :
    ((b % 2 ^ 8) <<< 4) ||| NIBBLE_LO (m % 2 ^ 8) = b % 256 * 16 + m % 256 % 16 := by
  rw [nib_lo, shiftLeft_lor_small _ _ _ (show m % 256 % 16 < 2 ^ 4 from
    Nat.mod_lt _ (by omega))]
  norm_num

theorem v0_cell_hi (b m : Nat) :
    ((b % 2 ^ 8) <<< 4) ||| NIBBLE_HI (m % 2 ^ 8) = b % 256 * 16 + m % 256 / 16 := by
  rw [nib_hi, shiftLeft_lor_small _ _ _ (show m % 256 / 16 < 2 ^ 4 from by
    apply Nat.div_lt_of_lt_mul
    have := Nat.mod_lt m (show 0 < (256 : Nat) by omega)
    omega)]
  norm_num

theorem v0Targets_eq_spec (blocks metadata : Nat → Nat) :
    v0Targets blocks metadata = v0SpecTargets blocks metadata := by
  rw [v0Targets, v0SpecTargets, show (16 * 16 : Nat) = 256 from rfl]
  refine flatMap_congr _ _ _ fun xz _ => ?_
  refine flatMap_congr _ _ _ fun k _ => ?_
  dsimp only
  rw [v0_cell_lo, v0_cell_hi]
  norm_num

/-- The closed-form v2 identifier assembled by disjoint ors equals the
arithmetic concatenation. -/
theorem v2_cell (a2n an bv mn : Nat) (ha2 : a2n < 2 ^ 4) (ha : an < 2 ^ 4)
    (hb : bv < 2 ^ 8) (hm : mn < 2 ^ 4) :
    (a2n <<< 16) ||| (an <<< 12) ||| (bv <<< 4) ||| mn = v2CellId a2n an bv mn := by
  have h1 : (a2n <<< 16) ||| (an <<< 12) = a2n * 2 ^ 16 + an * 2 ^ 12 := by
    rw [Nat.shiftLeft_eq, Nat.shiftLeft_eq, Nat.mul_comm a2n (2 ^ 16),
      ← Nat.mul_add_lt_is_or (show an * 2 ^ 12 < 2 ^ 16 by omega) a2n]
  have h2 : (a2n * 2 ^ 16 + an * 2 ^ 12) ||| (bv <<< 4) =
      a2n * 2 ^ 16 + an * 2 ^ 12 + bv * 2 ^ 4 := by
    rw [Nat.shiftLeft_eq,
      show a2n * 2 ^ 16 + an * 2 ^ 12 = 2 ^ 12 * (a2n * 2 ^ 4 + an) by ring,
      ← Nat.mul_add_lt_is_or (show bv * 2 ^ 4 < 2 ^ 12 by omega) (a2n * 2 ^ 4 + an)]
  have h3 : (a2n * 2 ^ 16 + an * 2 ^ 12 + bv * 2 ^ 4) ||| mn =
      a2n * 2 ^ 16 + an * 2 ^ 12 + bv * 2 ^ 4 + mn := by
    rw [show a2n * 2 ^ 16 + an * 2 ^ 12 + bv * 2 ^ 4 =
        2 ^ 4 * (a2n * 2 ^ 12 + an * 2 ^ 8 + bv) by ring,
      ← Nat.mul_add_lt_is_or hm (a2n * 2 ^ 12 + an * 2 ^ 8 + bv)]
  rw [h1, h2, h3, v2CellId]

theorem v2CellId_lt (a2 a b m : Nat) (ha2 : a2 < 16) (ha : a < 16) (hb : b < 256)
    (hm : m < 16) : v2CellId a2 a b m < 2 ^ 20 := by
  rw [v2CellId]
  omega

/-- The `size_t`/`uint32` index arithmetic of v2/v13 has no wraparound
on well-formed inputs. -/
theorem flatIdx_eq (idLim ySection y bid : Nat) (hLim : idLim < 2 ^ 32)
    (hys : ySection < 2 ^ 27) (hy : y < 16) (hbid : bid < 2 ^ 32) :
    ((ySection % 2 ^ 32 * 16 % 2 ^ 32 + y) * (idLim % 2 ^ 32) + bid) % 2 ^ 64 =
      (ySection * 16 + y) * idLim + bid := by
  rw [Nat.mod_eq_of_lt (show ySection < 2 ^ 32 by omega),
    Nat.mod_eq_of_lt (show ySection * 16 < 2 ^ 32 by omega),
    Nat.mod_eq_of_lt hLim]
  apply Nat.mod_eq_of_lt
  have hmul : (ySection * 16 + y) * idLim ≤ 2 ^ 31 * 2 ^ 32 :=
    Nat.mul_le_mul (by omega) (by omega)
  omega

theorem v2Targets_eq_spec (idLim ySection : Nat) (blocks add add2 metadata : Nat → Nat)
    (hLim : idLim < 2 ^ 32) (hys : ySection < 2 ^ 27) :
    v2Targets idLim ySection blocks add add2 metadata =
      v2SpecTargets idLim ySection blocks add add2 metadata := by
  rw [v2Targets, v2SpecTargets, show (16 * 16 / 2 : Nat) = 128 from rfl]
  refine flatMap_congr _ _ _ fun y hy => ?_
  refine flatMap_congr _ _ _ fun zx _ => ?_
  dsimp only
  have hy16 : y < 16 := List.mem_range.mp hy
  have hmod16 : ∀ x : Nat, x % 256 % 16 < 2 ^ 4 := fun x => Nat.mod_lt _ (by omega)
  have hdiv16 : ∀ x : Nat, x % 256 / 16 < 2 ^ 4 := fun x => by
    apply Nat.div_lt_of_lt_mul
    have := Nat.mod_lt x (show 0 < (256 : Nat) by omega)
    omega
  have hbyte : ∀ x : Nat, x % 2 ^ 8 < 2 ^ 8 := fun x => Nat.mod_lt _ (by omega)
  rw [nib_lo (add2 (zx + y * 128)), nib_lo (add (zx + y * 128)),
    nib_lo (metadata (zx + y * 128)), nib_hi (add2 (zx + y * 128)),
    nib_hi (add (zx + y * 128)), nib_hi (metadata (zx + y * 128)),
    v2_cell _ _ _ _ (hmod16 _) (hmod16 _) (hbyte _) (hmod16 _),
    v2_cell _ _ _ _ (hdiv16 _) (hdiv16 _) (hbyte _) (hdiv16 _)]
  have hid1 : v2CellId (add2 (zx + y * 128) % 256 % 16) (add (zx + y * 128) % 256 % 16)
      (blocks ((zx + y * 128) * 2 + 0) % 2 ^ 8) (metadata (zx + y * 128) % 256 % 16) <
      2 ^ 32 := by
    have := v2CellId_lt _ _ _ _ (hmod16 (add2 (zx + y * 128)))
      (hmod16 (add (zx + y * 128))) (hbyte (blocks ((zx + y * 128) * 2 + 0)))
      (hmod16 (metadata (zx + y * 128)))
    omega
  have hid2 : v2CellId (add2 (zx + y * 128) % 256 / 16) (add (zx + y * 128) % 256 / 16)
      (blocks ((zx + y * 128) * 2 + 1) % 2 ^ 8) (metadata (zx + y * 128) % 256 / 16) <
      2 ^ 32 := by
    have := v2CellId_lt _ _ _ _ (hdiv16 (add2 (zx + y * 128)))
      (hdiv16 (add (zx + y * 128))) (hbyte (blocks ((zx + y * 128) * 2 + 1)))
      (hdiv16 (metadata (zx + y * 128)))
    omega
  rw [flatIdx_eq idLim ySection y _ hLim hys hy16 hid1,
    flatIdx_eq idLim ySection y _ hLim hys hy16 hid2]
  norm_num

theorem v13Targets_eq_spec (idLim ySection : Nat) (paletteMap : Nat → Nat)
    (idxs : List Nat) (hLim : idLim < 2 ^ 32) (hys : ySection < 2 ^ 27)
    (hres : ∀ k, paletteMap (idxs.getD k 0) < 2 ^ 32) :
    v13Targets idLim ySection paletteMap idxs =
      v13SpecTargets idLim ySection paletteMap idxs := by
  rw [v13Targets, v13SpecTargets, show (16 * 16 : Nat) = 256 from rfl]
  refine flatMap_congr _ _ _ fun y hy => ?_
  refine flatMap_congr _ _ _ fun zx _ => ?_
  dsimp only
  have hy16 : y < 16 := List.mem_range.mp hy
  rw [Nat.mod_eq_of_lt (hres (zx + y * 256)),
    flatIdx_eq idLim ySection y _ hLim hys hy16 (hres _)]

theorem v0SpecTargets_length (blocks metadata : Nat → Nat) :
    (v0SpecTargets blocks metadata).length = 32768 := by
  have hinner : ∀ column : Nat, ((List.range 64).flatMap fun k =>
      let y := 2 * k
      let idx := y + column * 128
      [y * 4096 + (blocks idx % 256 * 16 + metadata (idx / 2) % 256 % 16),
        (y + 1) * 4096 + (blocks (idx + 1) % 256 * 16 + metadata (idx / 2) % 256 / 16)]).length
      = 128 := by
    intro column
    refine Eq.trans ?_ (show 2 * (List.range 64).length = 128 by simp)
    apply flatMap_length_const
    intro k _
    rfl
  rw [v0SpecTargets, flatMap_length_const _ _ 128 fun column _ => hinner column]
  simp

theorem v2SpecTargets_length (idLim ySection : Nat) (blocks add add2 metadata : Nat → Nat) :
    (v2SpecTargets idLim ySection blocks add add2 metadata).length = 4096 := by
  have hinner : ∀ y : Nat, ((List.range 128).flatMap fun zx =>
      let idx := zx + y * 128
      [(ySection * 16 + y) * idLim +
          v2CellId (add2 idx % 256 % 16) (add idx % 256 % 16)
            (blocks (idx * 2) % 256) (metadata idx % 256 % 16),
        (ySection * 16 + y) * idLim +
          v2CellId (add2 idx % 256 / 16) (add idx % 256 / 16)
            (blocks (idx * 2 + 1) % 256) (metadata idx % 256 / 16)]).length = 256 := by
    intro y
    refine Eq.trans ?_ (show 2 * (List.range 128).length = 256 by simp)
    apply flatMap_length_const
    intro zx _
    rfl
  rw [v2SpecTargets, flatMap_length_const _ _ 256 fun y _ => hinner y]
  simp

theorem v13SpecTargets_length (idLim ySection : Nat) (paletteMap : Nat → Nat)
    (idxs : List Nat) :
    (v13SpecTargets idLim ySection paletteMap idxs).length = 4096 := by
  have hinner : ∀ y : Nat, ((List.range 256).flatMap fun zx =>
      [(ySection * 16 + y) * idLim + paletteMap (idxs.getD (zx + y * 256) 0)]).length
      = 256 := by
    intro y
    refine Eq.trans ?_ (show 1 * (List.range 256).length = 256 by simp)
    apply flatMap_length_const
    intro zx _
    rfl
  rw [v13SpecTargets, flatMap_length_const _ _ 256 fun y _ => hinner y]
  simp

theorem v0SpecTargets_mem_lt (blocks metadata : Nat → Nat) :
    ∀ t ∈ v0SpecTargets blocks metadata, t < 128 * 4096 := by
  intro t ht
  rw [v0SpecTargets] at ht
  simp only [List.mem_flatMap, List.mem_range, List.mem_cons, List.not_mem_nil,
    or_false] at ht
  obtain ⟨column, hcol, k, hk, ht⟩ := ht
  have h1 : blocks (2 * k + column * 128) % 256 < 256 := Nat.mod_lt _ (by omega)
  have h1' : blocks (2 * k + column * 128 + 1) % 256 < 256 := Nat.mod_lt _ (by omega)
  have h2 : metadata ((2 * k + column * 128) / 2) % 256 % 16 < 16 := Nat.mod_lt _ (by omega)
  have h3 : metadata ((2 * k + column * 128) / 2) % 256 / 16 < 16 := by
    apply Nat.div_lt_of_lt_mul
    have := Nat.mod_lt (metadata ((2 * k + column * 128) / 2)) (show 0 < (256 : Nat) by omega)
    omega
  rcases ht with ht | ht <;> subst ht <;> omega

/-- The region bound shared by the v2/v13 flat histogram indices. -/
theorem region_bound (idLim ySection y bid : Nat) (hy : y < 16) (hb : bid < idLim) :
    ySection * 16 * idLim ≤ (ySection * 16 + y) * idLim + bid ∧
      (ySection * 16 + y) * idLim + bid < (ySection * 16 + 16) * idLim := by
  constructor
  · calc ySection * 16 * idLim ≤ (ySection * 16 + y) * idLim :=
        mul_le_mul_right' (by omega) idLim
      _ ≤ (ySection * 16 + y) * idLim + bid := Nat.le_add_right _ _
  · calc (ySection * 16 + y) * idLim + bid < (ySection * 16 + y) * idLim + idLim := by omega
      _ = (ySection * 16 + y + 1) * idLim := by ring
      _ ≤ (ySection * 16 + 16) * idLim := mul_le_mul_right' (by omega) idLim

theorem v2SpecTargets_mem (idLim ySection : Nat) (blocks add add2 metadata : Nat → Nat)
    (hbid : 2 ^ 20 ≤ idLim) :
    ∀ t ∈ v2SpecTargets idLim ySection blocks add add2 metadata,
      ySection * 16 * idLim ≤ t ∧ t < (ySection * 16 + 16) * idLim := by
  intro t ht
  rw [v2SpecTargets] at ht
  simp only [List.mem_flatMap, List.mem_range, List.mem_cons, List.not_mem_nil,
    or_false] at ht
  obtain ⟨y, hy, zx, hzx, ht⟩ := ht
  have hmod16 : ∀ x : Nat, x % 256 % 16 < 16 := fun x => Nat.mod_lt _ (by omega)
  have hdiv16 : ∀ x : Nat, x % 256 / 16 < 16 := fun x => by
    apply Nat.div_lt_of_lt_mul
    have := Nat.mod_lt x (show 0 < (256 : Nat) by omega)
    omega
  have hbyte : ∀ x : Nat, x % 256 < 256 := fun x => Nat.mod_lt _ (by omega)
  rcases ht with ht | ht <;> subst ht
  · refine region_bound idLim ySection y _ hy ?_
    have := v2CellId_lt _ _ _ _ (hmod16 (add2 (zx + y * 128))) (hmod16 (add (zx + y * 128)))
      (hbyte (blocks ((zx + y * 128) * 2))) (hmod16 (metadata (zx + y * 128)))
    omega
  · refine region_bound idLim ySection y _ hy ?_
    have := v2CellId_lt _ _ _ _ (hdiv16 (add2 (zx + y * 128))) (hdiv16 (add (zx + y * 128)))
      (hbyte (blocks ((zx + y * 128) * 2 + 1))) (hdiv16 (metadata (zx + y * 128)))
    omega

theorem v13SpecTargets_mem (idLim ySection : Nat) (paletteMap : Nat → Nat)
    (idxs : List Nat) (hres : ∀ k, paletteMap (idxs.getD k 0) < idLim) :
    ∀ t ∈ v13SpecTargets idLim ySection paletteMap idxs,
      ySection * 16 * idLim ≤ t ∧ t < (ySection * 16 + 16) * idLim := by
  intro t ht
  rw [v13SpecTargets] at ht
  simp only [List.mem_flatMap, List.mem_range, List.mem_cons, List.not_mem_nil,
    or_false] at ht
  obtain ⟨y, hy, zx, hzx, ht⟩ := ht
  subst ht
  exact region_bound idLim ySection y _ hy (hres _)

/-! Pointwise value of each decoder: initial value plus the number of
times the cell's index appears among the decoder's targets. -/

theorem dsci_v0_apply (blockCount blocks metadata : Nat → Nat)
    (hov : ∀ j, blockCount j + 2 ^ 16 < 2 ^ 64) (j : Nat) :
    dsci_v0 blockCount blocks metadata j =
      blockCount j + (v0SpecTargets blocks metadata).count j := by
  rw [dsci_v0, v0Targets_eq_spec]
  apply foldl_bump_apply
  intro i
  have hc := List.count_le_length i (v0SpecTargets blocks metadata)
  rw [v0SpecTargets_length] at hc
  have := hov i
  omega

theorem dsci_v2_apply (blockCount : Nat → Nat) (idLim ySection : Nat)
    (blocks add add2 metadata : Nat → Nat)
    (hLim : idLim < 2 ^ 32) (hys : ySection < 2 ^ 27)
    (hov : ∀ j, blockCount j + 2 ^ 16 < 2 ^ 64) (j : Nat) :
    dsci_v2 blockCount idLim ySection blocks add add2 metadata j =
      blockCount j +
        (v2SpecTargets idLim ySection blocks add add2 metadata).count j := by
  rw [dsci_v2, v2Targets_eq_spec idLim ySection blocks add add2 metadata hLim hys]
  apply foldl_bump_apply
  intro i
  have hc := List.count_le_length i (v2SpecTargets idLim ySection blocks add add2 metadata)
  rw [v2SpecTargets_length] at hc
  have := hov i
  omega

theorem dsci_v13_apply (blockCount : Nat → Nat) (idLim ySection : Nat)
    (blockStates paletteMap : Nat → Nat) (maxPaletteIdx : Nat) (carry : Bool)
    (hLim : idLim < 2 ^ 32) (hys : ySection < 2 ^ 27)
    (hres : ∀ k, paletteMap ((unpackedIdxs blockStates maxPaletteIdx carry).getD k 0) < 2 ^ 32)
    (hov : ∀ j, blockCount j + 2 ^ 16 < 2 ^ 64) (j : Nat) :
    dsci_v13 blockCount idLim ySection blockStates paletteMap maxPaletteIdx carry j =
      blockCount j + (v13SpecTargets idLim ySection paletteMap
        (unpackedIdxs blockStates maxPaletteIdx carry)).count j := by
  rw [dsci_v13, v13Targets_eq_spec idLim ySection paletteMap _ hLim hys hres]
  apply foldl_bump_apply
  intro i
  have hc := List.count_le_length i (v13SpecTargets idLim ySection paletteMap
    (unpackedIdxs blockStates maxPaletteIdx carry))
  rw [v13SpecTargets_length] at hc
  have := hov i
  omega

theorem unpackedIdxs_length (blockStates : Nat → Nat) (maxPaletteIdx : Nat) (carry : Bool)
    (h : maxPaletteIdx + 1 ≤ 2 ^ 16) :
    (unpackedIdxs blockStates maxPaletteIdx carry).length = 4096 := by
  obtain ⟨h4, h16⟩ := computeIdxBits_range maxPaletteIdx h
  rw [unpackedIdxs]
  cases carry
  · rw [if_neg (by simp)]
    exact unpack_nc_length _ _ (by omega) h16
  · rw [if_pos rfl]
    exact unpack_wc_length _ _ (by omega) h16

theorem unpackedIdxs_lt (blockStates : Nat → Nat) (maxPaletteIdx : Nat) (carry : Bool)
    (h : maxPaletteIdx + 1 ≤ 2 ^ 16) :
    ∀ v ∈ unpackedIdxs blockStates maxPaletteIdx carry, v < 2 ^ 16 := by
  obtain ⟨h4, h16⟩ := computeIdxBits_range maxPaletteIdx h
  have hpow : 2 ^ computeIdxBits maxPaletteIdx ≤ 2 ^ 16 := Nat.pow_le_pow_right (by omega) h16
  intro v hv
  rw [unpackedIdxs] at hv
  rcases carry with _ | _
  · rw [if_neg (by simp), unpack_nc_eq _ _ (by omega) h16] at hv
    obtain ⟨k, _, hval⟩ := List.mem_map.mp hv
    have : v < 2 ^ computeIdxBits maxPaletteIdx := hval ▸ Nat.mod_lt _ (two_pow_pos' _)
    omega
  · rw [if_pos rfl, unpack_wc_eq _ _ (by omega) h16] at hv
    obtain ⟨k, _, hval⟩ := List.mem_map.mp hv
    have : v < 2 ^ computeIdxBits maxPaletteIdx := hval ▸ Nat.mod_lt _ (two_pow_pos' _)
    omega

theorem unpackedIdxs_getD_lt (blockStates : Nat → Nat) (maxPaletteIdx : Nat) (carry : Bool)
    (h : maxPaletteIdx + 1 ≤ 2 ^ 16) (k : Nat) :
    (unpackedIdxs blockStates maxPaletteIdx carry).getD k 0 < 2 ^ 16 := by
  by_cases hk : k < (unpackedIdxs blockStates maxPaletteIdx carry).length
  · rw [List.getD_eq_getElem _ _ hk]
    exact unpackedIdxs_lt blockStates maxPaletteIdx carry h _ (List.getElem_mem _)
  · rw [List.getD_eq_default _ _ (by omega)]
    omega

/-- C3: for every byte array and nibble-packed metadata array,
`dsci_v0` performs exactly the increments the spec describes: for the
pair at `idx = y + column * 128`, the low cell's identifier
`blocks[idx] * 16 + low_nibble(metadata[idx/2])` at layer `y` and the
paired cell's `blocks[idx+1] * 16 + high_nibble(metadata[idx/2])` at
layer `y + 1`, into `histogram[layer * 4096 + id]`, each cell
contributing exactly one increment of exactly 1 (the histogram cell's
final value is its initial value plus the number of cells mapping to
it). -/
theorem C3_v0_decode (blockCount blocks metadata : Nat → Nat)
    (hov : ∀ j, blockCount j + 2 ^ 16 < 2 ^ 64) :
    ∀ j, dsci_v0 blockCount blocks metadata j =
      blockCount j + (v0SpecTargets blocks metadata).count j :=
  dsci_v0_apply blockCount blocks metadata hov

theorem C3_v0_decode_witness :
    dsci_v0 (fun _ => 0) (fun _ => 1) (fun _ => 2) 18 =
      0 + (v0SpecTargets (fun _ => 1) (fun _ => 2)).count 18 :=
  C3_v0_decode (fun _ => 0) (fun _ => 1) (fun _ => 2) (fun _ => (by decide : (0:Nat) + 2 ^ 16 < 2 ^ 64)) 18

/-- C4: the identifier `dsci_v2` counts for each cell equals the
unsigned bit concatenation `add2 : add : block : meta`
(`v2CellId`, the arithmetic closed form), with the low nibbles for the
cell at blocks index `idx*2+0` and the high nibbles for `idx*2+1`, and
the layer coordinate used for the increment is `ySection*16 + y`. -/
theorem C4_v2_identifier (blockCount : Nat → Nat) (idLim ySection : Nat)
    (blocks add add2 metadata : Nat → Nat) (hLim : idLim < 2 ^ 32)
    (hys : ySection < 2 ^ 27) (hov : ∀ j, blockCount j + 2 ^ 16 < 2 ^ 64) :
    ∀ j, dsci_v2 blockCount idLim ySection blocks add add2 metadata j =
      blockCount j + (v2SpecTargets idLim ySection blocks add add2 metadata).count j :=
  dsci_v2_apply blockCount idLim ySection blocks add add2 metadata hLim hys hov

theorem C4_v2_identifier_witness :
    dsci_v2 (fun _ => 0) (2 ^ 20) 0 (fun _ => 1) (fun _ => 2) (fun _ => 3) (fun _ => 4) 0 =
      0 + (v2SpecTargets (2 ^ 20) 0 (fun _ => 1) (fun _ => 2) (fun _ => 3)
        (fun _ => 4)).count 0 :=
  C4_v2_identifier (fun _ => 0) (2 ^ 20) 0 (fun _ => 1) (fun _ => 2) (fun _ => 3)
    (fun _ => 4) (by decide) (by decide) (fun _ => (by decide : (0:Nat) + 2 ^ 16 < 2 ^ 64)) 0

/-- C2: on a well-formed v13 input, `dsci_v13` unpacks exactly 4096
local palette indices, resolves index `i` at linear position
`idx = zx + y * 256` to `paletteMap[i]`, and increments
`histogram[(ySection*16 + y) * idLimit + identifier]` exactly once per
cell. -/
theorem C2_v13_decode (blockCount : Nat → Nat) (idLim ySection : Nat)
    (blockStates paletteMap : Nat → Nat) (maxPaletteIdx : Nat) (carry : Bool)
    (hmp : maxPaletteIdx + 1 ≤ 2 ^ 16) (hLim : idLim < 2 ^ 32) (hys : ySection < 2 ^ 27)
    (hpm : ∀ k, k < 2 ^ 16 → paletteMap k < idLim)
    (hov : ∀ j, blockCount j + 2 ^ 16 < 2 ^ 64) :
    (unpackedIdxs blockStates maxPaletteIdx carry).length = 4096 ∧
      ∀ j, dsci_v13 blockCount idLim ySection blockStates paletteMap maxPaletteIdx carry j =
        blockCount j + (v13SpecTargets idLim ySection paletteMap
          (unpackedIdxs blockStates maxPaletteIdx carry)).count j := by
  have hres : ∀ k,
      paletteMap ((unpackedIdxs blockStates maxPaletteIdx carry).getD k 0) < 2 ^ 32 :=
    fun k => lt_trans
      (hpm _ (unpackedIdxs_getD_lt blockStates maxPaletteIdx carry hmp k)) hLim
  exact ⟨unpackedIdxs_length blockStates maxPaletteIdx carry hmp,
    dsci_v13_apply blockCount idLim ySection blockStates paletteMap maxPaletteIdx carry
      hLim hys hres hov⟩

theorem C2_v13_decode_witness :
    (unpackedIdxs (fun _ => 0) 0 true).length = 4096 ∧
      dsci_v13 (fun _ => 0) (2 ^ 20) 0 (fun _ => 0) (fun _ => 0) 0 true 0 =
        0 + (v13SpecTargets (2 ^ 20) 0 (fun _ => 0)
          (unpackedIdxs (fun _ => 0) 0 true)).count 0 :=
  ⟨(C2_v13_decode (fun _ => 0) (2 ^ 20) 0 (fun _ => 0) (fun _ => 0) 0 true (by decide)
      (by decide) (by decide) (fun _ _ => (by decide : (0:Nat) < 2 ^ 20)) (fun _ => (by decide : (0:Nat) + 2 ^ 16 < 2 ^ 64))).1,
    (C2_v13_decode (fun _ => 0) (2 ^ 20) 0 (fun _ => 0) (fun _ => 0) 0 true (by decide)
      (by decide) (by decide) (fun _ _ => (by decide : (0:Nat) < 2 ^ 20)) (fun _ => (by decide : (0:Nat) + 2 ^ 16 < 2 ^ 64))).2 0⟩

/-- C7: on well-formed inputs, the total increment a decode call adds
across the histogram equals the section's cell count: `16*16*128 =
32768` for `dsci_v0` and `4096` for `dsci_v2` and `dsci_v13`. -/
theorem C7_conservation :
    (∀ blockCount blocks metadata : Nat → Nat,
        (∀ j, blockCount j + 2 ^ 16 < 2 ^ 64) →
        ((Finset.range (128 * 4096)).sum fun i =>
          dsci_v0 blockCount blocks metadata i - blockCount i) = 32768) ∧
      (∀ (blockCount : Nat → Nat) (idLim ySection : Nat)
        (blocks add add2 metadata : Nat → Nat),
        idLim < 2 ^ 32 → 2 ^ 20 ≤ idLim → ySection < 2 ^ 27 →
        (∀ j, blockCount j + 2 ^ 16 < 2 ^ 64) →
        ((Finset.range ((ySection * 16 + 16) * idLim)).sum fun i =>
          dsci_v2 blockCount idLim ySection blocks add add2 metadata i - blockCount i) =
          4096) ∧
      ∀ (blockCount : Nat → Nat) (idLim ySection : Nat)
        (blockStates paletteMap : Nat → Nat) (maxPaletteIdx : Nat) (carry : Bool),
        maxPaletteIdx + 1 ≤ 2 ^ 16 → idLim < 2 ^ 32 → ySection < 2 ^ 27 →
        (∀ k, k < 2 ^ 16 → paletteMap k < idLim) →
        (∀ j, blockCount j + 2 ^ 16 < 2 ^ 64) →
        ((Finset.range ((ySection * 16 + 16) * idLim)).sum fun i =>
          dsci_v13 blockCount idLim ySection blockStates paletteMap maxPaletteIdx carry i -
            blockCount i) = 4096 := by
  refine ⟨?_, ?_, ?_⟩
  · intro blockCount blocks metadata hov
    have hsum : ((Finset.range (128 * 4096)).sum fun i =>
        dsci_v0 blockCount blocks metadata i - blockCount i) =
        (Finset.range (128 * 4096)).sum fun i =>
          (v0SpecTargets blocks metadata).count i :=
      Finset.sum_congr rfl fun i _ => by
        rw [dsci_v0_apply blockCount blocks metadata hov i]
        omega
    rw [hsum, count_sum_length _ _ (v0SpecTargets_mem_lt blocks metadata),
      v0SpecTargets_length]
  · intro blockCount idLim ySection blocks add add2 metadata hLim hbid hys hov
    have hsum : ((Finset.range ((ySection * 16 + 16) * idLim)).sum fun i =>
        dsci_v2 blockCount idLim ySection blocks add add2 metadata i - blockCount i) =
        (Finset.range ((ySection * 16 + 16) * idLim)).sum fun i =>
          (v2SpecTargets idLim ySection blocks add add2 metadata).count i :=
      Finset.sum_congr rfl fun i _ => by
        rw [dsci_v2_apply blockCount idLim ySection blocks add add2 metadata hLim hys hov i]
        omega
    rw [hsum, count_sum_length _ _
      (fun x hx => (v2SpecTargets_mem idLim ySection blocks add add2 metadata hbid x hx).2),
      v2SpecTargets_length]
  · intro blockCount idLim ySection blockStates paletteMap maxPaletteIdx carry
      hmp hLim hys hpm hov
    have hres : ∀ k,
        paletteMap ((unpackedIdxs blockStates maxPaletteIdx carry).getD k 0) < idLim :=
      fun k => hpm _ (unpackedIdxs_getD_lt blockStates maxPaletteIdx carry hmp k)
    have hres32 : ∀ k,
        paletteMap ((unpackedIdxs blockStates maxPaletteIdx carry).getD k 0) < 2 ^ 32 :=
      fun k => lt_trans (hres k) hLim
    have hsum : ((Finset.range ((ySection * 16 + 16) * idLim)).sum fun i =>
        dsci_v13 blockCount idLim ySection blockStates paletteMap maxPaletteIdx carry i -
          blockCount i) =
        (Finset.range ((ySection * 16 + 16) * idLim)).sum fun i =>
          (v13SpecTargets idLim ySection paletteMap
            (unpackedIdxs blockStates maxPaletteIdx carry)).count i :=
      Finset.sum_congr rfl fun i _ => by
        rw [dsci_v13_apply blockCount idLim ySection blockStates paletteMap maxPaletteIdx
          carry hLim hys hres32 hov i]
        omega
    rw [hsum, count_sum_length _ _
      (fun x hx => (v13SpecTargets_mem idLim ySection paletteMap _ hres x hx).2),
      v13SpecTargets_length]

theorem C7_conservation_witness :
    ((Finset.range (128 * 4096)).sum fun i =>
      dsci_v0 (fun _ => 0) (fun _ => 0) (fun _ => 0) i - 0) = 32768 ∧
      ((Finset.range ((0 * 16 + 16) * 2 ^ 20)).sum fun i =>
        dsci_v2 (fun _ => 0) (2 ^ 20) 0 (fun _ => 0) (fun _ => 0) (fun _ => 0)
          (fun _ => 0) i - 0) = 4096 ∧
      ((Finset.range ((0 * 16 + 16) * 2 ^ 20)).sum fun i =>
        dsci_v13 (fun _ => 0) (2 ^ 20) 0 (fun _ => 0) (fun _ => 0) 0 false i - 0) = 4096 :=
  ⟨C7_conservation.1 (fun _ => 0) (fun _ => 0) (fun _ => 0) (fun _ => (by decide : (0:Nat) + 2 ^ 16 < 2 ^ 64)),
    C7_conservation.2.1 (fun _ => 0) (2 ^ 20) 0 (fun _ => 0) (fun _ => 0) (fun _ => 0)
      (fun _ => 0) (by decide) (by decide) (by decide) (fun _ => (by decide : (0:Nat) + 2 ^ 16 < 2 ^ 64)),
    C7_conservation.2.2 (fun _ => 0) (2 ^ 20) 0 (fun _ => 0) (fun _ => 0) 0 false
      (by decide) (by decide) (by decide) (fun _ _ => (by decide : (0:Nat) < 2 ^ 20)) (fun _ => (by decide : (0:Nat) + 2 ^ 16 < 2 ^ 64))⟩

/-- C9: every histogram entry outside a call's declared region — layers
`[0, 128)` with identifiers `[0, 4096)` for `dsci_v0`, layers
`[ySection*16, ySection*16 + 16)` with identifiers `[0, idLimit)` for
`dsci_v2`/`dsci_v13` — is unchanged, and every entry inside is at least
its previous value: the decoders only increment. -/
theorem C9_frame :
    (∀ blockCount blocks metadata : Nat → Nat,
        (∀ j, blockCount j + 2 ^ 16 < 2 ^ 64) →
        (∀ j, 128 * 4096 ≤ j → dsci_v0 blockCount blocks metadata j = blockCount j) ∧
          ∀ j, blockCount j ≤ dsci_v0 blockCount blocks metadata j) ∧
      (∀ (blockCount : Nat → Nat) (idLim ySection : Nat)
        (blocks add add2 metadata : Nat → Nat),
        idLim < 2 ^ 32 → 2 ^ 20 ≤ idLim → ySection < 2 ^ 27 →
        (∀ j, blockCount j + 2 ^ 16 < 2 ^ 64) →
        (∀ j, j < ySection * 16 * idLim ∨ (ySection * 16 + 16) * idLim ≤ j →
          dsci_v2 blockCount idLim ySection blocks add add2 metadata j = blockCount j) ∧
          ∀ j, blockCount j ≤ dsci_v2 blockCount idLim ySection blocks add add2 metadata j) ∧
      ∀ (blockCount : Nat → Nat) (idLim ySection : Nat)
        (blockStates paletteMap : Nat → Nat) (maxPaletteIdx : Nat) (carry : Bool),
        maxPaletteIdx + 1 ≤ 2 ^ 16 → idLim < 2 ^ 32 → ySection < 2 ^ 27 →
        (∀ k, k < 2 ^ 16 → paletteMap k < idLim) →
        (∀ j, blockCount j + 2 ^ 16 < 2 ^ 64) →
        (∀ j, j < ySection * 16 * idLim ∨ (ySection * 16 + 16) * idLim ≤ j →
          dsci_v13 blockCount idLim ySection blockStates paletteMap maxPaletteIdx carry j =
            blockCount j) ∧
          ∀ j, blockCount j ≤
            dsci_v13 blockCount idLim ySection blockStates paletteMap maxPaletteIdx carry j := by
  refine ⟨?_, ?_, ?_⟩
  · intro blockCount blocks metadata hov
    constructor
    · intro j hj
      rw [dsci_v0_apply blockCount blocks metadata hov j,
        List.count_eq_zero_of_not_mem fun hmem => by
          have := v0SpecTargets_mem_lt blocks metadata j hmem
          omega]
      omega
    · intro j
      rw [dsci_v0_apply blockCount blocks metadata hov j]
      omega
  · intro blockCount idLim ySection blocks add add2 metadata hLim hbid hys hov
    constructor
    · intro j hj
      rw [dsci_v2_apply blockCount idLim ySection blocks add add2 metadata hLim hys hov j,
        List.count_eq_zero_of_not_mem fun hmem => by
          have := v2SpecTargets_mem idLim ySection blocks add add2 metadata hbid j hmem
          omega]
      omega
    · intro j
      rw [dsci_v2_apply blockCount idLim ySection blocks add add2 metadata hLim hys hov j]
      omega
  · intro blockCount idLim ySection blockStates paletteMap maxPaletteIdx carry
      hmp hLim hys hpm hov
    have hres : ∀ k,
        paletteMap ((unpackedIdxs blockStates maxPaletteIdx carry).getD k 0) < idLim :=
      fun k => hpm _ (unpackedIdxs_getD_lt blockStates maxPaletteIdx carry hmp k)
    have hres32 : ∀ k,
        paletteMap ((unpackedIdxs blockStates maxPaletteIdx carry).getD k 0) < 2 ^ 32 :=
      fun k => lt_trans (hres k) hLim
    constructor
    · intro j hj
      rw [dsci_v13_apply blockCount idLim ySection blockStates paletteMap maxPaletteIdx
          carry hLim hys hres32 hov j,
        List.count_eq_zero_of_not_mem fun hmem => by
          have := v13SpecTargets_mem idLim ySection paletteMap _ hres j hmem
          omega]
      omega
    · intro j
      rw [dsci_v13_apply blockCount idLim ySection blockStates paletteMap maxPaletteIdx
        carry hLim hys hres32 hov j]
      omega

theorem C9_frame_witness :
    dsci_v0 (fun _ => 0) (fun _ => 0) (fun _ => 0) (128 * 4096) = 0 ∧
      dsci_v2 (fun _ => 0) (2 ^ 20) 0 (fun _ => 0) (fun _ => 0) (fun _ => 0) (fun _ => 0)
        ((0 * 16 + 16) * 2 ^ 20) = 0 ∧
      dsci_v13 (fun _ => 0) (2 ^ 20) 0 (fun _ => 0) (fun _ => 0) 0 false
        ((0 * 16 + 16) * 2 ^ 20) = 0 :=
  ⟨((C9_frame.1 (fun _ => 0) (fun _ => 0) (fun _ => 0) (fun _ => (by decide : (0:Nat) + 2 ^ 16 < 2 ^ 64))).1
      (128 * 4096) (by decide)),
    ((C9_frame.2.1 (fun _ => 0) (2 ^ 20) 0 (fun _ => 0) (fun _ => 0) (fun _ => 0)
      (fun _ => 0) (by decide) (by decide) (by decide) (fun _ => (by decide : (0:Nat) + 2 ^ 16 < 2 ^ 64))).1
      ((0 * 16 + 16) * 2 ^ 20) (Or.inr (by decide))),
    ((C9_frame.2.2 (fun _ => 0) (2 ^ 20) 0 (fun _ => 0) (fun _ => 0) 0 false
      (by decide) (by decide) (by decide) (fun _ _ => (by decide : (0:Nat) < 2 ^ 20)) (fun _ => (by decide : (0:Nat) + 2 ^ 16 < 2 ^ 64))).1
      ((0 * 16 + 16) * 2 ^ 20) (Or.inr (by decide)))⟩

end WorldLayers
